import Mathlib

/-!
Verification of the CIDR allocation core of massdriver-cloud/cola.

The development shallowly embeds:
  - the relevant parts of Go net (net.IP, net.IPMask, net.IPNet, IP.Equal,
    IPNet.Contains) over natural numbers: a byte slice of length len with
    big-endian numeric value val is modelled as the pair (len, val);
  - the helpers of github.com/apparentlymart/go-cidr used by the repo
    (AddressRange, Subnet, VerifyNoOverlap);
  - pkg/cidr/comparison.go (EqualCIDRs, EqualMask, SmallerMask) and
    pkg/cidr/find.go (FindAvailableCIDR, evaluateChildren, ChildCidrs,
    MatchesExistingCidr, ContainsExistingCidr, ContainsCidr).

Masks are modelled as the canonical prefix masks produced by net.CIDRMask
and net.ParseCIDR: the pair (ones, bits).  Mask.Size of such a mask is
exactly (ones, bits), and every mask the program builds internally goes
through net.CIDRMask.  Error values are modelled as inductive kinds that
keep the payload the Go error messages carry.
-/

namespace Cola

/-- Models net.IP: a byte slice of length len whose big-endian value is val
(val is meaningful modulo 256 ^ len). -/
structure IP where
  len : ℕ
  val : ℕ
deriving DecidableEq, Repr

/-- Models a canonical net.IPMask as produced by net.CIDRMask(ones, bits):
ones leading one bits out of bits total.  Its byte length is bits / 8 and
its Size() is (ones, bits). -/
structure Mask where
  ones : ℕ
  bits : ℕ
deriving DecidableEq, Repr

/-- Models net.IPNet: an address together with a mask. -/
structure IPNet where
  ip : IP
  mask : Mask
deriving DecidableEq, Repr

/-- Models net.IPMask.Size(): for a canonical CIDRMask this is the pair
(leading ones, total bits). -/
def Mask.size (m : Mask) : ℕ × ℕ := (m.ones, m.bits)

/-- Numeric value of the byte string of net.CIDRMask(ones, bits):
the top ones bits set out of bits. -/
def maskVal (ones bits : ℕ) : ℕ := 2 ^ bits - 2 ^ (bits - ones)

/-- Models net.IP.To4: the 4-byte form of an IPv4 address, which is either
already 4 bytes long or is 16 bytes long with the v4-in-v6 prefix
(ten zero bytes then 0xff 0xff), i.e. value divided by 2^32 equals 0xffff. -/
def IP.to4 (ip : IP) : Option IP :=
  if ip.len = 4 then some ip
  else if ip.len = 16 ∧ ip.val / 2 ^ 32 = 0xffff then some ⟨4, ip.val % 2 ^ 32⟩
  else none

/-- Models net.IP.Equal: byte equality at equal stored lengths, and
cross-width equality between a 4-byte address and a 16-byte v4-in-v6
mapped address with the same low 32 bits. -/
def IP.Equal (x y : IP) : Bool :=
  if x.len = y.len then x.val == y.val
  else if x.len = 4 ∧ y.len = 16 then
    (y.val / 2 ^ 32 == 0xffff) && (y.val % 2 ^ 32 == x.val)
  else if x.len = 16 ∧ y.len = 4 then
    (x.val / 2 ^ 32 == 0xffff) && (x.val % 2 ^ 32 == y.val)
  else false

/-- Models the net package helper networkNumberAndMask: normalizes the
network address with To4 (falling back to a full 16-byte address), then
adapts the mask: a 4-byte mask requires a 4-byte address, a 16-byte mask
used with a 4-byte address is sliced to its last 4 bytes. -/
def networkNumberAndMask (n : IPNet) : Option (IP × ℕ) :=
  let ipOpt : Option IP :=
    match n.ip.to4 with
    | some i => some i
    | none => if n.ip.len = 16 then some n.ip else none
  match ipOpt with
  | none => none
  | some ip =>
    if n.mask.bits = 32 then
      if ip.len = 4 then some (ip, maskVal n.mask.ones 32) else none
    else if n.mask.bits = 128 then
      if ip.len = 4 then some (ip, maskVal n.mask.ones 128 % 2 ^ 32)
      else some (ip, maskVal n.mask.ones 128)
    else none

/-- Models net.IPNet.Contains: normalize the candidate with To4, compare
lengths, then compare the masked network number with the masked candidate. -/
def IPNet.contains (n : IPNet) (x : IP) : Bool :=
  match networkNumberAndMask n with
  | none => false
  | some (nn, m) =>
    let xn := match x.to4 with | some i => i | none => x
    (xn.len == nn.len) && (Nat.land nn.val m == Nat.land xn.val m)

/-- Models go-cidr AddressRange: first address is the stored network
address; the last address sets the host bits, whose count is the stored
address width minus the prefix length from Mask.Size. -/
def AddressRange (network : IPNet) : IP × IP :=
  let s := network.mask.size
  if s.1 = s.2 then (network.ip, network.ip)
  else
    let bits := 8 * network.ip.len
    let hostLen := bits - s.1
    (network.ip, ⟨network.ip.len, Nat.lor (2 ^ hostLen - 1) network.ip.val⟩)

/-- Error cases of go-cidr Subnet. -/
inductive SubnetError where
  | insufficientAddressSpace : SubnetError
  | invalidSubnetNumber : SubnetError
deriving DecidableEq, Repr

/-- Models go-cidr insertNumIntoIP: or the subnet number, shifted into
place below the new prefix, into the address (width taken from the stored
address length). -/
def insertNumIntoIP (ip : IP) (num newPrefixLen : ℕ) : IP :=
  let totalBits := 8 * ip.len
  ⟨ip.len, Nat.lor ip.val (num <<< (totalBits - newPrefixLen))⟩

/-- Models go-cidr Subnet(base, newBits, num): extends the prefix by
newBits and selects subnet num; fails if the prefix would exceed the
address width declared by the mask, or num does not fit in newBits. -/
def Subnet (base : IPNet) (newBits num : ℕ) : Except SubnetError IPNet :=
  let parentLen := base.mask.size.1
  let addrLen := base.mask.size.2
  let newPrefixLen := parentLen + newBits
  if addrLen < newPrefixLen then .error .insufficientAddressSpace
  else if 2 ^ newBits - 1 < num then .error .invalidSubnetNumber
  else .ok ⟨insertNumIntoIP base.ip num newPrefixLen, ⟨newPrefixLen, addrLen⟩⟩

/-- The two error shapes of go-cidr VerifyNoOverlap, with the blocks the
messages name ("%s does not fully contain %s", "%s overlaps with %s"). -/
inductive VerifyError where
  | doesNotContain (block sub : IPNet)
  | overlapsWith (other sub : IPNet)
deriving DecidableEq, Repr

/-- Models the firstLastIP array of VerifyNoOverlap: each subnet paired
with its index and its AddressRange. -/
def indexRanges (subnets : List IPNet) (start : ℕ) : List (ℕ × IPNet × IP × IP) :=
  match subnets with
  | [] => []
  | s :: rest => (start, s, (AddressRange s).1, (AddressRange s).2) :: indexRanges rest (start + 1)

/-- Inner loop of VerifyNoOverlap: for subnet s at index i, scan all other
entries and report the first whose first or last address s contains. -/
def vnoInner (s : IPNet) (i : ℕ) : List (ℕ × IPNet × IP × IP) → Option VerifyError
  | [] => none
  | (j, t, f, l) :: rest =>
    if j = i then vnoInner s i rest
    else if s.contains f || s.contains l then some (.overlapsWith t s)
    else vnoInner s i rest

/-- Outer loop of VerifyNoOverlap: check each subnet is contained in the
supernet, then run the pairwise overlap scan for it. -/
def vnoOuter (block : IPNet) (all : List (ℕ × IPNet × IP × IP)) :
    List (ℕ × IPNet × IP × IP) → Option VerifyError
  | [] => none
  | (i, s, f, l) :: rest =>
    if !(block.contains f && block.contains l) then some (.doesNotContain block s)
    else
      match vnoInner s i all with
      | some e => some e
      | none => vnoOuter block all rest

/-- Models go-cidr VerifyNoOverlap(subnets, CIDRBlock). -/
def VerifyNoOverlap (subnets : List IPNet) (block : IPNet) : Option VerifyError :=
  let indexed := indexRanges subnets 0
  vnoOuter block indexed indexed

/-- pkg/cidr/comparison.go EqualMask: both Size components must match. -/
def EqualMask (x y : Mask) : Bool :=
  (x.size.1 == y.size.1) && (x.size.2 == y.size.2)

/-- pkg/cidr/comparison.go EqualCIDRs. -/
def EqualCIDRs (x y : IPNet) : Bool :=
  x.ip.Equal y.ip && EqualMask x.mask y.mask

/-- pkg/cidr/comparison.go SmallerMask: more leading ones means a smaller
range. -/
def SmallerMask (smaller larger : Mask) : Bool :=
  decide (larger.size.1 < smaller.size.1)

/-- pkg/cidr/find.go MatchesExistingCidr. -/
def MatchesExistingCidr (currentCidr : IPNet) (usedCidrs : List IPNet) : Bool :=
  usedCidrs.any fun usedCidr => EqualCIDRs currentCidr usedCidr

/-- pkg/cidr/find.go ContainsCidr: the parent contains both ends of the
child range. -/
def ContainsCidr (parentCidr childCidr : IPNet) : Bool :=
  let r := AddressRange childCidr
  parentCidr.contains r.1 && parentCidr.contains r.2

/-- pkg/cidr/find.go ContainsExistingCidr. -/
def ContainsExistingCidr (currentCidr : IPNet) (usedCidrs : List IPNet) : Bool :=
  usedCidrs.any fun usedCidr => ContainsCidr currentCidr usedCidr

/-- pkg/cidr/find.go ChildCidrs: the two half subnets of the parent. -/
def ChildCidrs (parent : IPNet) : Except SubnetError (IPNet × IPNet) :=
  match Subnet parent 1 0 with
  | .error e => .error e
  | .ok child1 =>
    match Subnet parent 1 1 with
    | .error e => .error e
    | .ok child2 => .ok (child1, child2)

/-- Body of the per-child step of evaluateChildren in pkg/cidr/find.go:
skip a child equal to a used block; at a candidate leaf accept unless it
contains a used block; otherwise descend.  The descent result is passed
as an argument (it is only read in the descend branch, so the function
agrees with the short-circuiting Go loop body). -/
def childTry (recurseResult : Except SubnetError (Option IPNet)) (child : IPNet)
    (desiredMask : Mask) (usedCidrs : List IPNet) : Except SubnetError (Option IPNet) :=
  if MatchesExistingCidr child usedCidrs then .ok none
  else if EqualMask desiredMask child.mask then
    if ContainsExistingCidr child usedCidrs then .ok none
    else .ok (some child)
  else recurseResult

/-- Structural form of evaluateChildren.  The Go function recurses on the
children; here the recursion is driven by the fuel n, which
evaluateChildren instantiates with bits - ones, an upper bound on the
subdivision depth.  The fuel-zero-with-children case is unreachable from
evaluateChildren (ChildCidrs succeeds only when ones < bits); the proved
recursion equation evaluateChildren_eq below is exactly the recursion of
the source. -/
def evalAux (n : ℕ) (currentCidr : IPNet) (desiredMask : Mask)
    (usedCidrs : List IPNet) : Except SubnetError (Option IPNet) :=
  match ChildCidrs currentCidr with
  | .error e => .error e
  | .ok (child1, child2) =>
    match n with
    | 0 => .ok none
    | m + 1 =>
      match childTry (evalAux m child1 desiredMask usedCidrs) child1 desiredMask usedCidrs with
      | .error e => .error e
      | .ok (some r) => .ok (some r)
      | .ok none =>
        match childTry (evalAux m child2 desiredMask usedCidrs) child2 desiredMask usedCidrs with
        | .error e => .error e
        | .ok (some r) => .ok (some r)
        | .ok none => .ok none

/-- pkg/cidr/find.go evaluateChildren. -/
def evaluateChildren (currentCidr : IPNet) (desiredMask : Mask)
    (usedCidrs : List IPNet) : Except SubnetError (Option IPNet) :=
  evalAux (currentCidr.mask.size.2 - currentCidr.mask.size.1) currentCidr desiredMask usedCidrs

/-- The distinct error values FindAvailableCIDR can return: the error of
VerifyNoOverlap, the message "unable to find available cidr", the message
"desired mask is larger than available cidr", and a propagated Subnet
error. -/
inductive FindError where
  | invalidRanges (e : VerifyError)
  | unableToFind
  | desiredMaskTooLarge
  | splitError (e : SubnetError)
deriving DecidableEq, Repr

/-- pkg/cidr/find.go FindAvailableCIDR. -/
def FindAvailableCIDR (rootCidr : IPNet) (desiredMask : Mask)
    (usedCidrs : List IPNet) : Except FindError IPNet :=
  match VerifyNoOverlap usedCidrs rootCidr with
  | some e => .error (.invalidRanges e)
  | none =>
    if EqualMask rootCidr.mask desiredMask then
      if usedCidrs.length = 0 then .ok rootCidr
      else .error .unableToFind
    else if SmallerMask rootCidr.mask desiredMask then .error .desiredMaskTooLarge
    else
      match evaluateChildren rootCidr desiredMask usedCidrs with
      | .error e => .error (.splitError e)
      | .ok (some result) => .ok result
      | .ok none => .error .unableToFind

/-- The error kinds of the spec, section 7. -/
inductive ErrorKind where
  | invalidInputRanges
  | noAvailableBlock
  | maskExhausted
deriving DecidableEq, Repr

/-- Modelled from the spec: the section 7 error taxonomy classifies the
validation error as InvalidInputRanges, both the exhaustion message and
the oversized-request message as NoAvailableBlock, and a propagated split
failure as MaskExhausted. -/
def FindError.kind : FindError → ErrorKind
  | .invalidRanges _ => .invalidInputRanges
  | .unableToFind => .noAvailableBlock
  | .desiredMaskTooLarge => .noAvailableBlock
  | .splitError _ => .maskExhausted

/-- A well-formed block of either address family of the data model, the
form net.ParseCIDR produces: the 32-bit family stored in 4 bytes, or the
128-bit family stored in 16 bytes with a value outside the v4-in-v6
mapped range (a 16-byte address inside that range denotes a
32-bit-family address: To4 converts it and IP.Equal identifies it with
its 4-byte form).  The mask is declared over the stored width with a
valid prefix length, and the network address is aligned to the prefix. -/
def WFCidr (b : IPNet) : Prop :=
  (b.ip.len = 4 ∨ (b.ip.len = 16 ∧ b.ip.val / 2 ^ 32 ≠ 0xffff)) ∧
  b.ip.val < 2 ^ (8 * b.ip.len) ∧ b.mask.bits = 8 * b.ip.len ∧
  b.mask.ones ≤ b.mask.bits ∧ 2 ^ (b.mask.bits - b.mask.ones) ∣ b.ip.val

instance (b : IPNet) : Decidable (WFCidr b) := by
  unfold WFCidr
  exact inferInstance

/-- The width-indexed numeric shape shared by both families: a stored
length of L bytes, value and mask declared over 8L bits, and prefix
alignment. -/
def WFV (L : ℕ) (b : IPNet) : Prop :=
  b.ip.len = L ∧ b.ip.val < 2 ^ (8 * L) ∧ b.mask.bits = 8 * L ∧
  b.mask.ones ≤ 8 * L ∧ 2 ^ (8 * L - b.mask.ones) ∣ b.ip.val

/-- Modelled from the spec: the numeric value an address denotes once
normalized into the common canonical (128-bit) width; a 32-bit address is
widened through the v4-in-v6 mapping.  Defined only for the two fixed
widths of the data model. -/
def canonVal (ip : IP) : Option ℕ :=
  if ip.len = 4 then some (0xffff * 2 ^ 32 + ip.val)
  else if ip.len = 16 then some ip.val
  else none

/-- Modelled from the spec: membership of a canonical-width numeric
address in the range a block denotes, with the block address normalized
into the canonical width. -/
def memRange (b : IPNet) (x : ℕ) : Prop :=
  ∃ s, canonVal b.ip = some s ∧ s ≤ x ∧ x < s + 2 ^ (b.mask.bits - b.mask.ones)

instance (b : IPNet) (x : ℕ) : Decidable (memRange b x) :=
  match h : canonVal b.ip with
  | none => isFalse (fun hm => by
      obtain ⟨s, hs, _, _⟩ := hm
      rw [h] at hs
      exact absurd hs (by simp))
  | some s =>
    if hle : s ≤ x ∧ x < s + 2 ^ (b.mask.bits - b.mask.ones) then
      isTrue ⟨s, h, hle.1, hle.2⟩
    else
      isFalse (fun hm => by
        obtain ⟨t, ht, h1, h2⟩ := hm
        rw [h] at ht
        injection ht with hst
        subst hst
        exact hle ⟨h1, h2⟩)

/-- A candidate block whose address range is disjoint from the range of
every reserved block, over a fixed width W. -/
def FreeFrom (W : ℕ) (used : List IPNet) (C : IPNet) : Prop :=
  ∀ u ∈ used, C.ip.val + 2 ^ (W - C.mask.ones) ≤ u.ip.val ∨
    u.ip.val + 2 ^ (W - u.mask.ones) ≤ C.ip.val

theorem two_pow_pos' (k : ℕ) : 0 < 2 ^ k := Nat.pos_pow_of_pos k (by norm_num)

/-- Or-ing bits below the alignment of a is addition. -/
theorem lor_low {k a b : ℕ} (ha : 2 ^ k ∣ a) (hb : b < 2 ^ k) :
    Nat.lor a b = a + b := by
  obtain ⟨q, hq⟩ := ha
  subst hq
  have hco : Nat.lor (2 ^ k * q) b = 2 ^ k * q ||| b := rfl
  rw [hco]
  apply Nat.eq_of_testBit_eq
  intro i
  rw [Nat.testBit_lor]
  rw [Nat.testBit_mul_pow_two_add q hb i]
  by_cases hik : i < k
  · have h1 : Nat.testBit (2 ^ k * q) i = false := by
      rw [Nat.testBit_mul_pow_two]
      simp [Nat.not_le_of_lt hik]
    simp [hik, h1]
  · have h2 : Nat.testBit b i = false := by
      apply Nat.testBit_lt_two_pow
      exact lt_of_lt_of_le hb (Nat.pow_le_pow_right (by norm_num) (Nat.le_of_not_lt hik))
    have h3 : Nat.testBit (2 ^ k * q) i = Nat.testBit q (i - k) := by
      rw [Nat.testBit_mul_pow_two]
      simp [Nat.le_of_not_lt hik]
    simp [hik, h2, h3]

/-- And-ing with a canonical prefix mask clears the low k bits. -/
theorem land_mask {k n a : ℕ} (hk : k ≤ n) (ha : a < 2 ^ n) :
    Nat.land a (2 ^ n - 2 ^ k) = a / 2 ^ k * 2 ^ k := by
  have hmask : 2 ^ n - 2 ^ k = 2 ^ k * (2 ^ (n - k) - 1) := by
    rw [Nat.mul_sub, Nat.mul_one, ← pow_add]
    congr 2
    omega
  have hco : Nat.land a (2 ^ n - 2 ^ k) = a &&& (2 ^ n - 2 ^ k) := rfl
  rw [hco, hmask]
  apply Nat.eq_of_testBit_eq
  intro i
  rw [Nat.testBit_and]
  have hdm : a / 2 ^ k * 2 ^ k = 2 ^ k * (a / 2 ^ k) := by ring
  rw [hdm, Nat.testBit_mul_pow_two, Nat.testBit_mul_pow_two]
  by_cases hik : k ≤ i
  · have hdiv : a / 2 ^ k = a >>> k := (Nat.shiftRight_eq_div_pow a k).symm
    rw [hdiv, Nat.testBit_shiftRight]
    have hik2 : k + (i - k) = i := by omega
    rw [hik2]
    by_cases hin : i < n
    · have : Nat.testBit (2 ^ (n - k) - 1) (i - k) = true := by
        rw [Nat.testBit_two_pow_sub_one]
        simp only [decide_eq_true_eq]
        omega
      simp [hik, this]
    · have h2 : Nat.testBit a i = false := by
        apply Nat.testBit_lt_two_pow
        exact lt_of_lt_of_le ha (Nat.pow_le_pow_right (by norm_num) (Nat.le_of_not_lt hin))
      have : Nat.testBit (2 ^ (n - k) - 1) (i - k) = false := by
        rw [Nat.testBit_two_pow_sub_one]
        simp only [decide_eq_false_iff_not]
        omega
      simp [hik, h2, this]
  · simp [hik]

/-- Two distinct multiples of 2 ^ i are at least 2 ^ i apart. -/
theorem aligned_add_le {i a b : ℕ} (ha : 2 ^ i ∣ a) (hb : 2 ^ i ∣ b) (h : a < b) :
    a + 2 ^ i ≤ b := by
  obtain ⟨p, hp⟩ := ha
  obtain ⟨q, hq⟩ := hb
  subst hp
  subst hq
  have hpq : p < q := by
    by_contra hc
    exact absurd (Nat.mul_le_mul_left (2 ^ i) (Nat.le_of_not_lt hc)) (Nat.not_le_of_lt h)
  calc 2 ^ i * p + 2 ^ i = 2 ^ i * (p + 1) := by ring
  _ ≤ 2 ^ i * q := Nat.mul_le_mul_left (2 ^ i) hpq
  _ = 2 ^ i * q := rfl

/-- Dyadic intervals that intersect are nested: the one with the larger
size contains the other. -/
theorem dyadic {i j a b x : ℕ} (hij : i ≤ j) (ha : 2 ^ i ∣ a) (hb : 2 ^ j ∣ b)
    (h1 : a ≤ x) (h2 : x < a + 2 ^ i) (h3 : b ≤ x) (h4 : x < b + 2 ^ j) :
    b ≤ a ∧ a + 2 ^ i ≤ b + 2 ^ j := by
  have hdij : (2 : ℕ) ^ i ∣ 2 ^ j := pow_dvd_pow 2 hij
  have hba : b ≤ a := by
    by_contra hc
    have := aligned_add_le ha (dvd_trans hdij hb) (Nat.lt_of_not_le hc)
    omega
  refine ⟨hba, ?_⟩
  have hr : 2 ^ i ∣ a - b := Nat.dvd_sub' ha (dvd_trans hdij hb)
  have hrlt : a - b < 2 ^ j := by omega
  have := aligned_add_le hr hdij hrlt
  omega

/-- An aligned value equals the clearing of the low bits of any member of
its block. -/
theorem aligned_eq_iff {k a x : ℕ} (ha : 2 ^ k ∣ a) :
    a = x / 2 ^ k * 2 ^ k ↔ (a ≤ x ∧ x < a + 2 ^ k) := by
  have hdm : x / 2 ^ k * 2 ^ k + x % 2 ^ k = x := by
    rw [Nat.mul_comm]
    exact Nat.div_add_mod x (2 ^ k)
  have hmlt : x % 2 ^ k < 2 ^ k := Nat.mod_lt x (two_pow_pos' k)
  constructor
  · intro h
    have h1 : x / 2 ^ k * 2 ^ k ≤ x := Nat.div_mul_le_self x (2 ^ k)
    omega
  · intro h
    obtain ⟨q, hq⟩ := ha
    have hdq : x / 2 ^ k = q := by
      apply Nat.div_eq_of_lt_le
      · rw [Nat.mul_comm]
        omega
      · have : (q + 1) * 2 ^ k = q * 2 ^ k + 2 ^ k := by ring
        rw [this, Nat.mul_comm]
        omega
    subst hq
    rw [hdq]
    ring

theorem lor_low_flip {k a b : ℕ} (ha : 2 ^ k ∣ a) (hb : b < 2 ^ k) :
    Nat.lor b a = a + b := by
  have h1 : Nat.lor b a = b ||| a := rfl
  have h2 : Nat.lor a b = a ||| b := rfl
  rw [h1, Nat.or_comm, ← h2, lor_low ha hb]

/-- EqualMask unfolded. -/
theorem equalMask_iff {x y : Mask} :
    EqualMask x y = true ↔ (x.ones = y.ones ∧ x.bits = y.bits) := by
  simp [EqualMask, Mask.size]

/-- SmallerMask unfolded. -/
theorem smallerMask_iff {x y : Mask} :
    SmallerMask x y = true ↔ y.ones < x.ones := by
  simp [SmallerMask, Mask.size]

/-- EqualCIDRs between two blocks of the same stored length is literal
equality of the numeric address and of both mask components. -/
theorem equalCIDRs_len_iff {x y : IPNet} (h : x.ip.len = y.ip.len) :
    EqualCIDRs x y = true ↔
      (x.ip.val = y.ip.val ∧ x.mask.ones = y.mask.ones ∧ x.mask.bits = y.mask.bits) := by
  simp [EqualCIDRs, IP.Equal, EqualMask, Mask.size, h, and_assoc]

/-- ChildCidrs succeeds below the maximum prefix length and produces the
two half blocks. -/
theorem childCidrs_ok {c : IPNet} (h : c.mask.ones < c.mask.bits) :
    ChildCidrs c = .ok
      (⟨c.ip, ⟨c.mask.ones + 1, c.mask.bits⟩⟩,
       ⟨⟨c.ip.len, Nat.lor c.ip.val (1 <<< (8 * c.ip.len - (c.mask.ones + 1)))⟩,
        ⟨c.mask.ones + 1, c.mask.bits⟩⟩) := by
  have h1 : ¬ (c.mask.bits < c.mask.ones + 1) := by omega
  have h2 : ¬ ((2 : ℕ) ^ 1 - 1 < 0) := by norm_num
  have h3 : ¬ ((2 : ℕ) ^ 1 - 1 < 1) := by norm_num
  simp only [ChildCidrs, Subnet, insertNumIntoIP, Mask.size, h1, h2, h3, if_false]
  have h4 : Nat.lor c.ip.val (0 <<< (8 * c.ip.len - (c.mask.ones + 1))) = c.ip.val := by
    rw [Nat.zero_shiftLeft]
    have : Nat.lor c.ip.val 0 = c.ip.val ||| 0 := rfl
    rw [this, Nat.or_zero]
  rw [h4]

/-- ChildCidrs fails exactly at the maximum prefix length. -/
theorem childCidrs_err {c : IPNet} (h : c.mask.bits ≤ c.mask.ones) :
    ChildCidrs c = .error .insufficientAddressSpace := by
  have h1 : c.mask.bits < c.mask.ones + 1 := by omega
  simp [ChildCidrs, Subnet, Mask.size, h1]

theorem evalAux_error {current : IPNet} {e : SubnetError}
    (h : ChildCidrs current = .error e) (n : ℕ) (d : Mask) (used : List IPNet) :
    evalAux n current d used = .error e := by
  cases n <;> simp [evalAux, h]

theorem evalAux_succ {current c1 c2 : IPNet} (h : ChildCidrs current = .ok (c1, c2))
    (m : ℕ) (d : Mask) (used : List IPNet) :
    evalAux (m + 1) current d used =
      match childTry (evalAux m c1 d used) c1 d used with
      | .error e => .error e
      | .ok (some r) => .ok (some r)
      | .ok none =>
        match childTry (evalAux m c2 d used) c2 d used with
        | .error e => .error e
        | .ok (some r) => .ok (some r)
        | .ok none => .ok none := by
  conv =>
    lhs
    rw [evalAux]
  rw [h]

/-- The recursion equation of evaluateChildren in pkg/cidr/find.go: split
the current block and run the per-child step on the lower child, then on
the upper child. -/
theorem evaluateChildren_eq (current : IPNet) (d : Mask) (used : List IPNet) :
    evaluateChildren current d used =
      match ChildCidrs current with
      | .error e => .error e
      | .ok (c1, c2) =>
        match childTry (evaluateChildren c1 d used) c1 d used with
        | .error e => .error e
        | .ok (some r) => .ok (some r)
        | .ok none =>
          match childTry (evaluateChildren c2 d used) c2 d used with
          | .error e => .error e
          | .ok (some r) => .ok (some r)
          | .ok none => .ok none := by
  by_cases hlt : current.mask.ones < current.mask.bits
  · have hok := childCidrs_ok hlt
    have hm : current.mask.size.2 - current.mask.size.1 =
        (current.mask.bits - (current.mask.ones + 1)) + 1 := by
      simp only [Mask.size]
      omega
    rw [evaluateChildren, hm, evalAux_succ hok, hok]
    rfl
  · have hge : current.mask.bits ≤ current.mask.ones := by omega
    have herr := childCidrs_err hge
    rw [evaluateChildren, evalAux_error herr, herr]

/-- Successful outcome of the per-child step: either the child itself was
accepted as a leaf, or the step descended. -/
theorem childTry_some {r : Except SubnetError (Option IPNet)} {child B : IPNet}
    {d : Mask} {used : List IPNet} (h : childTry r child d used = .ok (some B)) :
    (MatchesExistingCidr child used = false ∧ EqualMask d child.mask = true ∧
        ContainsExistingCidr child used = false ∧ B = child) ∨
      (MatchesExistingCidr child used = false ∧ EqualMask d child.mask = false ∧
        r = .ok (some B)) := by
  by_cases h1 : MatchesExistingCidr child used
  · simp [childTry, h1] at h
  · by_cases h2 : EqualMask d child.mask
    · by_cases h3 : ContainsExistingCidr child used
      · simp [childTry, h1, h2, h3] at h
      · left
        simp [childTry, h1, h2, h3] at h
        exact ⟨by simp [h1], h2, by simp [h3], h.symm⟩
    · right
      simp only [childTry, h1, h2] at h
      simp at h1 h2
      exact ⟨h1, h2, by simpa using h⟩

/-- Empty outcome of the per-child step: the child was pruned, or it was a
rejected leaf, or the descent found nothing. -/
theorem childTry_none {r : Except SubnetError (Option IPNet)} {child : IPNet}
    {d : Mask} {used : List IPNet} (h : childTry r child d used = .ok none) :
    MatchesExistingCidr child used = true ∨
      (MatchesExistingCidr child used = false ∧ EqualMask d child.mask = true ∧
        ContainsExistingCidr child used = true) ∨
      (MatchesExistingCidr child used = false ∧ EqualMask d child.mask = false ∧
        r = .ok none) := by
  by_cases h1 : MatchesExistingCidr child used
  · left
    simp [h1]
  · by_cases h2 : EqualMask d child.mask
    · by_cases h3 : ContainsExistingCidr child used
      · right
        left
        simp [h1, h2, h3]
      · simp [childTry, h1, h2, h3] at h
    · right
      right
      simp only [childTry, h1, h2] at h
      simp at h1 h2
      exact ⟨h1, h2, by simpa using h⟩

/-- The per-child step fails only by propagating a failed descent, which
happens only for a non-matching child of the wrong mask size. -/
theorem childTry_error {r : Except SubnetError (Option IPNet)} {child : IPNet}
    {d : Mask} {used : List IPNet} {e : SubnetError}
    (h : childTry r child d used = .error e) :
    MatchesExistingCidr child used = false ∧ EqualMask d child.mask = false ∧
      r = .error e := by
  by_cases h1 : MatchesExistingCidr child used
  · simp [childTry, h1] at h
  · by_cases h2 : EqualMask d child.mask
    · by_cases h3 : ContainsExistingCidr child used <;> simp [childTry, h1, h2, h3] at h
    · have hr : r = .error e := by simpa [childTry, h1, h2] using h
      simp at h1 h2
      exact ⟨h1, h2, hr⟩

/-- The per-child step only reads the descent result when the child is
unmatched and not yet at the desired mask. -/
theorem childTry_congr {r1 r2 : Except SubnetError (Option IPNet)} {child : IPNet}
    {d : Mask} {used : List IPNet}
    (h : EqualMask d child.mask = false → r1 = r2) :
    childTry r1 child d used = childTry r2 child d used := by
  by_cases h1 : MatchesExistingCidr child used
  · simp [childTry, h1]
  · by_cases h2 : EqualMask d child.mask
    · simp [childTry, h1, h2]
    · have hr := h (by simpa using h2)
      simp [childTry, h1, h2, hr]

/-- Dissecting a successful two-child loop. -/
theorem chain2_some {X Y : Except SubnetError (Option IPNet)} {B : IPNet}
    (h : (match X with
          | .error e => .error e
          | .ok (some r) => .ok (some r)
          | .ok none =>
            match Y with
            | .error e => .error e
            | .ok (some r) => .ok (some r)
            | .ok none => .ok none) = Except.ok (some B)) :
    X = .ok (some B) ∨ (X = .ok none ∧ Y = .ok (some B)) := by
  rcases X with e | o
  · simp at h
  · rcases o with _ | r
    · rcases Y with e | o2
      · simp at h
      · rcases o2 with _ | r2
        · simp at h
        · simp at h
          right
          exact ⟨rfl, by rw [h]⟩
    · simp at h
      left
      rw [h]

/-- Dissecting an empty two-child loop. -/
theorem chain2_none {X Y : Except SubnetError (Option IPNet)}
    (h : (match X with
          | .error e => .error e
          | .ok (some r) => .ok (some r)
          | .ok none =>
            match Y with
            | .error e => .error e
            | .ok (some r) => .ok (some r)
            | .ok none => .ok none) = Except.ok none) :
    X = .ok none ∧ Y = .ok none := by
  rcases X with e | o
  · simp at h
  · rcases o with _ | r
    · rcases Y with e | o2
      · simp at h
      · rcases o2 with _ | r2
        · exact ⟨rfl, rfl⟩
        · simp at h
    · simp at h

/-- A two-child loop over non-failing steps does not fail. -/
theorem chain2_ok {X Y Z : Except SubnetError (Option IPNet)}
    (hZ : Z = match X with
          | .error e => .error e
          | .ok (some r) => .ok (some r)
          | .ok none =>
            match Y with
            | .error e => .error e
            | .ok (some r) => .ok (some r)
            | .ok none => .ok none)
    (hX : ∀ e, X ≠ .error e) (hY : ∀ e, Y ≠ .error e) :
    ∃ r, Z = Except.ok r := by
  subst hZ
  rcases X with e | o
  · exact absurd rfl (hX e)
  · rcases o with _ | r
    · rcases Y with e | o2
      · exact absurd rfl (hY e)
      · rcases o2 with _ | r2
        · exact ⟨none, rfl⟩
        · exact ⟨some r2, rfl⟩
    · exact ⟨some r, rfl⟩

theorem matches_false_iff {c : IPNet} {used : List IPNet} :
    MatchesExistingCidr c used = false ↔ ∀ u ∈ used, EqualCIDRs c u = false := by
  simp [MatchesExistingCidr, List.any_eq_false]

theorem containsEx_false_iff {c : IPNet} {used : List IPNet} :
    ContainsExistingCidr c used = false ↔ ∀ u ∈ used, ContainsCidr c u = false := by
  simp [ContainsExistingCidr, List.any_eq_false]

theorem matches_true_iff {c : IPNet} {used : List IPNet} :
    MatchesExistingCidr c used = true ↔ ∃ u ∈ used, EqualCIDRs c u = true := by
  simp [MatchesExistingCidr, List.any_eq_true]

theorem containsEx_true_iff {c : IPNet} {used : List IPNet} :
    ContainsExistingCidr c used = true ↔ ∃ u ∈ used, ContainsCidr c u = true := by
  simp [ContainsExistingCidr, List.any_eq_true]

/-- If the outer validation loop reports nothing, every remaining entry
passed the containment check and its overlap scan. -/
theorem vnoOuter_none {block : IPNet} {all : List (ℕ × IPNet × IP × IP)} :
    ∀ {rem : List (ℕ × IPNet × IP × IP)}, vnoOuter block all rem = none →
      ∀ e ∈ rem, (block.contains e.2.2.1 && block.contains e.2.2.2) = true ∧
        vnoInner e.2.1 e.1 all = none := by
  intro rem
  induction rem with
  | nil =>
    intro _ e he
    simp at he
  | cons hd tl ih =>
    intro h e he
    obtain ⟨i, s, f, l⟩ := hd
    by_cases hc : (block.contains f && block.contains l) = true
    · rw [vnoOuter, hc] at h
      simp only [Bool.not_true, Bool.false_eq_true, if_false] at h
      cases hInner : vnoInner s i all with
      | some e2 =>
        rw [hInner] at h
        simp at h
      | none =>
        rw [hInner] at h
        rcases List.mem_cons.mp he with he1 | he2
        · subst he1
          exact ⟨hc, hInner⟩
        · exact ih h e he2
    · rw [vnoOuter] at h
      have hcf : (block.contains f && block.contains l) = false := by
        cases hx : (block.contains f && block.contains l)
        · rfl
        · exact absurd hx hc
      rw [hcf] at h
      simp at h
  -- end

/-- If the inner overlap scan reports nothing, the subnet contains no
endpoint of any other entry. -/
theorem vnoInner_none {s : IPNet} {i : ℕ} :
    ∀ {lst : List (ℕ × IPNet × IP × IP)}, vnoInner s i lst = none →
      ∀ e ∈ lst, e.1 ≠ i →
        s.contains e.2.2.1 = false ∧ s.contains e.2.2.2 = false := by
  intro lst
  induction lst with
  | nil =>
    intro _ e he
    simp at he
  | cons hd tl ih =>
    intro h e he hne
    obtain ⟨j, t, f, l⟩ := hd
    by_cases hji : j = i
    · rw [vnoInner, if_pos hji] at h
      rcases List.mem_cons.mp he with he1 | he2
      · subst he1
        exact absurd hji hne
      · exact ih h e he2 hne
    · rw [vnoInner, if_neg hji] at h
      by_cases hc : (s.contains f || s.contains l) = true
      · rw [hc] at h
        simp at h
      · have hcf : (s.contains f || s.contains l) = false := by
          cases hx : (s.contains f || s.contains l)
          · rfl
          · exact absurd hx hc
        rw [hcf] at h
        simp only [Bool.false_eq_true, if_false] at h
        rcases List.mem_cons.mp he with he1 | he2
        · subst he1
          exact ⟨(Bool.or_eq_false_iff.mp hcf).1, (Bool.or_eq_false_iff.mp hcf).2⟩
        · exact ih h e he2 hne

/-- Each subnet occurs in the indexed range list at its position. -/
theorem indexRanges_mem {subnets : List IPNet} :
    ∀ (start idx : ℕ) (h : idx < subnets.length),
      (start + idx, subnets.get ⟨idx, h⟩, (AddressRange (subnets.get ⟨idx, h⟩)).1,
        (AddressRange (subnets.get ⟨idx, h⟩)).2) ∈ indexRanges subnets start := by
  induction subnets with
  | nil =>
    intro start idx h
    simp at h
  | cons hd tl ih =>
    intro start idx h
    cases idx with
    | zero =>
      simp [indexRanges]
    | succ n =>
      have hnl : n < tl.length := by
        simp at h
        omega
      have hs : start + (n + 1) = (start + 1) + n := by omega
      rw [indexRanges]
      apply List.mem_cons_of_mem
      have := ih (start + 1) n hnl
      rw [hs]
      exact this

/-- Validation success means the supernet contains every subnet. -/
theorem verify_none_contains {subnets : List IPNet} {block : IPNet}
    (h : VerifyNoOverlap subnets block = none) :
    ∀ (idx : ℕ) (hidx : idx < subnets.length),
      ContainsCidr block (subnets.get ⟨idx, hidx⟩) = true := by
  intro idx hidx
  have hmem := indexRanges_mem 0 idx hidx
  have hout := vnoOuter_none h _ hmem
  have h1 := hout.1
  show (block.contains (AddressRange (subnets.get ⟨idx, hidx⟩)).1 &&
    block.contains (AddressRange (subnets.get ⟨idx, hidx⟩)).2) = true
  exact h1

/-- Validation success means no subnet contains an endpoint of another. -/
theorem verify_none_pairwise {subnets : List IPNet} {block : IPNet}
    (h : VerifyNoOverlap subnets block = none) :
    ∀ (i j : ℕ) (hi : i < subnets.length) (hj : j < subnets.length), i ≠ j →
      (subnets.get ⟨i, hi⟩).contains (AddressRange (subnets.get ⟨j, hj⟩)).1 = false ∧
      (subnets.get ⟨i, hi⟩).contains (AddressRange (subnets.get ⟨j, hj⟩)).2 = false := by
  intro i j hi hj hij
  have hmi := indexRanges_mem 0 i hi
  have hmj := indexRanges_mem 0 j hj
  have hout := vnoOuter_none h _ hmi
  have hinner := hout.2
  have := vnoInner_none hinner _ hmj (by omega)
  exact this

/-- When the widths agree and the desired prefix is reachable, the search
never fails: every split happens strictly below the width. -/
theorem eval_no_error {d : Mask} {used : List IPNet} (hdb : d.ones ≤ d.bits) :
    ∀ (k : ℕ) (current : IPNet), d.ones - current.mask.ones = k →
      current.mask.bits = d.bits → current.mask.ones < d.ones →
      ∃ r, evaluateChildren current d used = .ok r := by
  intro k
  induction k using Nat.strong_induction_on with
  | _ k IH =>
    intro current hk hbits hlt
    have hltb : current.mask.ones < current.mask.bits := by omega
    have hok := childCidrs_ok hltb
    have hX : ∀ e, childTry (evaluateChildren
        (⟨current.ip, ⟨current.mask.ones + 1, current.mask.bits⟩⟩ : IPNet) d used)
        (⟨current.ip, ⟨current.mask.ones + 1, current.mask.bits⟩⟩ : IPNet) d used
        ≠ .error e := by
      intro e hcontra
      obtain ⟨hm, hneq, hrec⟩ := childTry_error hcontra
      have hone : current.mask.ones + 1 < d.ones := by
        by_contra hcon2
        have he : d.ones = current.mask.ones + 1 := by omega
        have ht : EqualMask d
            (⟨current.ip, ⟨current.mask.ones + 1, current.mask.bits⟩⟩ : IPNet).mask = true := by
          rw [equalMask_iff]
          refine ⟨he, ?_⟩
          show d.bits = current.mask.bits
          omega
        rw [ht] at hneq
        simp at hneq
      obtain ⟨r, hr⟩ := IH (d.ones - (current.mask.ones + 1)) (by omega)
        (⟨current.ip, ⟨current.mask.ones + 1, current.mask.bits⟩⟩ : IPNet) rfl
        (by simpa using hbits) (by simpa using hone)
      rw [hr] at hrec
      simp at hrec
    have hY : ∀ e, childTry (evaluateChildren
        (⟨⟨current.ip.len,
            Nat.lor current.ip.val (1 <<< (8 * current.ip.len - (current.mask.ones + 1)))⟩,
          ⟨current.mask.ones + 1, current.mask.bits⟩⟩ : IPNet) d used)
        (⟨⟨current.ip.len,
            Nat.lor current.ip.val (1 <<< (8 * current.ip.len - (current.mask.ones + 1)))⟩,
          ⟨current.mask.ones + 1, current.mask.bits⟩⟩ : IPNet) d used
        ≠ .error e := by
      intro e hcontra
      obtain ⟨hm, hneq, hrec⟩ := childTry_error hcontra
      have hone : current.mask.ones + 1 < d.ones := by
        by_contra hcon2
        have he : d.ones = current.mask.ones + 1 := by omega
        have ht : EqualMask d
            (⟨⟨current.ip.len,
                Nat.lor current.ip.val (1 <<< (8 * current.ip.len - (current.mask.ones + 1)))⟩,
              ⟨current.mask.ones + 1, current.mask.bits⟩⟩ : IPNet).mask = true := by
          rw [equalMask_iff]
          refine ⟨he, ?_⟩
          show d.bits = current.mask.bits
          omega
        rw [ht] at hneq
        simp at hneq
      obtain ⟨r, hr⟩ := IH (d.ones - (current.mask.ones + 1)) (by omega)
        (⟨⟨current.ip.len,
            Nat.lor current.ip.val (1 <<< (8 * current.ip.len - (current.mask.ones + 1)))⟩,
          ⟨current.mask.ones + 1, current.mask.bits⟩⟩ : IPNet) rfl
        (by simpa using hbits) (by simpa using hone)
      rw [hr] at hrec
      simp at hrec
    refine chain2_ok ?_ hX hY
    rw [evaluateChildren_eq, hok]

/-- Any fuel at least the distance to the desired prefix computes the same
search result: the recursion depth is bounded by that distance. -/
theorem evalAux_congr {d : Mask} {used : List IPNet} (hdb : d.ones ≤ d.bits) :
    ∀ (k : ℕ) (current : IPNet), d.ones - current.mask.ones = k →
      current.mask.bits = d.bits → current.mask.ones < d.ones →
      ∀ n1 n2, k ≤ n1 → k ≤ n2 →
        evalAux n1 current d used = evalAux n2 current d used := by
  intro k
  induction k using Nat.strong_induction_on with
  | _ k IH =>
    intro current hk hbits hlt n1 n2 hn1 hn2
    have hltb : current.mask.ones < current.mask.bits := by omega
    have hok := childCidrs_ok hltb
    cases n1 with
    | zero => omega
    | succ m1 =>
      cases n2 with
      | zero => omega
      | succ m2 =>
        rw [evalAux_succ hok, evalAux_succ hok]
        have hstep : ∀ c : IPNet, c.mask.ones = current.mask.ones + 1 →
            c.mask.bits = current.mask.bits →
            childTry (evalAux m1 c d used) c d used =
              childTry (evalAux m2 c d used) c d used := by
          intro c hco hcb
          apply childTry_congr
          intro hneq
          have hone : current.mask.ones + 1 < d.ones := by
            by_contra hcon2
            have he : d.ones = current.mask.ones + 1 := by omega
            have ht : EqualMask d c.mask = true := by
              rw [equalMask_iff]
              rw [hco, hcb]
              exact ⟨he, by omega⟩
            rw [ht] at hneq
            simp at hneq
          exact IH (d.ones - (current.mask.ones + 1)) (by omega) c (by omega)
            (by omega) (by omega) m1 m2 (by omega) (by omega)
        rw [hstep (⟨current.ip, ⟨current.mask.ones + 1, current.mask.bits⟩⟩ : IPNet) rfl rfl,
          hstep (⟨⟨current.ip.len,
              Nat.lor current.ip.val (1 <<< (8 * current.ip.len - (current.mask.ones + 1)))⟩,
            ⟨current.mask.ones + 1, current.mask.bits⟩⟩ : IPNet) rfl rfl]

/-- The fuel of evaluateChildren can be lowered to the subdivision-depth
bound desired ones minus current ones. -/
theorem eval_depth_bound {d : Mask} {used : List IPNet} {current : IPNet}
    (hdb : d.ones ≤ d.bits) (hbits : current.mask.bits = d.bits)
    (hlt : current.mask.ones < d.ones) :
    evaluateChildren current d used =
      evalAux (d.ones - current.mask.ones) current d used := by
  have h1 : current.mask.size.2 - current.mask.size.1 =
      current.mask.bits - current.mask.ones := rfl
  rw [evaluateChildren, h1]
  exact evalAux_congr hdb (d.ones - current.mask.ones) current rfl hbits hlt _ _
    (by omega) (le_refl _)

/-- Generalized structure eta for addresses. -/
theorem ip_etaL {i : IP} {L : ℕ} (h : i.len = L) : i = ⟨L, i.val⟩ := by
  cases i
  simp only at h
  simp [h]

/-- AddressRange of a consistently declared aligned block of any width. -/
theorem addressRange_eqW {u : IPNet} (hb : u.mask.bits = 8 * u.ip.len)
    (ho : u.mask.ones ≤ u.mask.bits) (hd : 2 ^ (u.mask.bits - u.mask.ones) ∣ u.ip.val) :
    AddressRange u = (u.ip, ⟨u.ip.len, u.ip.val + (2 ^ (u.mask.bits - u.mask.ones) - 1)⟩) := by
  by_cases hones : u.mask.ones = u.mask.bits
  · simp only [AddressRange, Mask.size, hones, if_true]
    have hz : u.ip.val + (2 ^ (u.mask.bits - u.mask.bits) - 1) = u.ip.val := by
      rw [Nat.sub_self]
      simp
    have hip : u.ip = (⟨u.ip.len, u.ip.val⟩ : IP) := ip_etaL rfl
    rw [hz, ← hip]
  · simp only [AddressRange, Mask.size, hones, if_false]
    have hlor := lor_low_flip hd
      (Nat.sub_lt (two_pow_pos' (u.mask.bits - u.mask.ones)) Nat.one_pos)
    rw [← hb]
    norm_num
    rw [hlor]

/-- Addresses in the v4-in-v6 form are exactly the widened 32-bit values. -/
theorem v4inv6_iff {a b : ℕ} (ha : a < 2 ^ 32) :
    (b / 2 ^ 32 = 0xffff ∧ b % 2 ^ 32 = a) ↔ 0xffff * 2 ^ 32 + a = b := by
  constructor
  · intro ⟨h1, h2⟩
    have hdm := Nat.div_add_mod b (2 ^ 32)
    rw [h1, h2] at hdm
    omega
  · intro h
    subst h
    constructor
    · rw [Nat.mul_comm, Nat.mul_add_div (two_pow_pos' 32)]
      have : a / 2 ^ 32 = 0 := Nat.div_eq_of_lt ha
      omega
    · rw [Nat.add_mod, Nat.mul_mod_left]
      have h1 : a % 2 ^ 32 = a := Nat.mod_eq_of_lt ha
      rw [Nat.zero_add, Nat.mod_mod_of_dvd _ dvd_rfl, h1]

/-- A successful FindAvailableCIDR went through one of its two success
paths, after validation passed. -/
theorem find_ok_cases {rootCidr : IPNet} {desiredMask : Mask} {usedCidrs : List IPNet}
    {B : IPNet} (h : FindAvailableCIDR rootCidr desiredMask usedCidrs = .ok B) :
    VerifyNoOverlap usedCidrs rootCidr = none ∧
      ((EqualMask rootCidr.mask desiredMask = true ∧ usedCidrs = [] ∧ B = rootCidr) ∨
        (EqualMask rootCidr.mask desiredMask = false ∧
          SmallerMask rootCidr.mask desiredMask = false ∧
          evaluateChildren rootCidr desiredMask usedCidrs = .ok (some B))) := by
  cases hv : VerifyNoOverlap usedCidrs rootCidr with
  | some e =>
    rw [FindAvailableCIDR, hv] at h
    simp at h
  | none =>
    rw [FindAvailableCIDR, hv] at h
    refine ⟨rfl, ?_⟩
    by_cases he : EqualMask rootCidr.mask desiredMask
    · rw [if_pos he] at h
      by_cases hlen : usedCidrs.length = 0
      · rw [if_pos hlen] at h
        left
        refine ⟨he, List.length_eq_zero.mp hlen, ?_⟩
        cases h
        rfl
      · rw [if_neg hlen] at h
        simp at h
    · rw [if_neg he] at h
      by_cases hs : SmallerMask rootCidr.mask desiredMask
      · rw [if_pos hs] at h
        simp at h
      · rw [if_neg hs] at h
        right
        refine ⟨by simpa using he, by simpa using hs, ?_⟩
        cases hev : evaluateChildren rootCidr desiredMask usedCidrs with
        | error e =>
          rw [hev] at h
          simp at h
        | ok o =>
          rw [hev] at h
          cases o with
          | none => simp at h
          | some r =>
            simp at h
            rw [h]

/-- General-width value of the upper child address. -/
theorem child2_valW {c : IPNet} (hb : c.mask.bits = 8 * c.ip.len)
    (hd : 2 ^ (c.mask.bits - c.mask.ones) ∣ c.ip.val) (h : c.mask.ones < c.mask.bits) :
    Nat.lor c.ip.val (1 <<< (8 * c.ip.len - (c.mask.ones + 1))) =
      c.ip.val + 2 ^ (c.mask.bits - (c.mask.ones + 1)) := by
  rw [← hb, Nat.one_shiftLeft]
  apply lor_low hd
  apply Nat.pow_lt_pow_right (by norm_num)
  omega

/-- With fuel zero and a splittable block the search gives up empty. -/
theorem evalAux_zero {current c1 c2 : IPNet} (h : ChildCidrs current = .ok (c1, c2))
    (d : Mask) (used : List IPNet) : evalAux 0 current d used = .ok none := by
  conv =>
    lhs
    rw [evalAux]
  rw [h]

/-- The two children of a split carry the incremented prefix over the
parent's declared width, and a successful split means the parent was
strictly below the width. -/
theorem childCidrs_masks {c c1 c2 : IPNet} (h : ChildCidrs c = .ok (c1, c2)) :
    c1.mask = ⟨c.mask.ones + 1, c.mask.bits⟩ ∧ c2.mask = ⟨c.mask.ones + 1, c.mask.bits⟩ ∧
      c.mask.ones < c.mask.bits := by
  by_cases hlt : c.mask.ones < c.mask.bits
  · rw [childCidrs_ok hlt] at h
    simp only [Except.ok.injEq, Prod.mk.injEq] at h
    obtain ⟨ha, hb⟩ := h
    refine ⟨?_, ?_, hlt⟩
    · rw [← ha]
    · rw [← hb]
  · rw [childCidrs_err (by omega)] at h
    exact absurd h (by simp)

/-- A block returned by the search carries the desired mask, whose width
is the width declared at every node on the way down. -/
theorem evalAux_some_mask :
    ∀ (n : ℕ) (current : IPNet) (d : Mask) (used : List IPNet) (B : IPNet),
      evalAux n current d used = .ok (some B) →
      B.mask.ones = d.ones ∧ B.mask.bits = d.bits ∧ d.bits = current.mask.bits ∧
        current.mask.ones < d.ones ∧ d.ones ≤ d.bits := by
  intro n
  induction n with
  | zero =>
    intro current d used B h
    cases hc : ChildCidrs current with
    | error e =>
      rw [evalAux_error hc 0 d used] at h
      exact absurd h (by simp)
    | ok p =>
      obtain ⟨c1, c2⟩ := p
      rw [evalAux_zero hc d used] at h
      exact absurd h (by simp)
  | succ m ih =>
    intro current d used B h
    cases hc : ChildCidrs current with
    | error e =>
      rw [evalAux_error hc (m + 1) d used] at h
      exact absurd h (by simp)
    | ok p =>
      obtain ⟨c1, c2⟩ := p
      obtain ⟨hm1, hm2, hlt⟩ := childCidrs_masks hc
      rw [evalAux_succ hc m d used] at h
      have hstep : ∀ c : IPNet, c.mask = ⟨current.mask.ones + 1, current.mask.bits⟩ →
          ∀ r, childTry (evalAux m c d used) c d used = .ok (some B) →
          (r = evalAux m c d used) →
          B.mask.ones = d.ones ∧ B.mask.bits = d.bits ∧ d.bits = current.mask.bits ∧
            current.mask.ones < d.ones ∧ d.ones ≤ d.bits := by
        intro c hcm r hct _
        rcases childTry_some hct with ⟨hmm, heq, hcon, hBc⟩ | ⟨hmm, hneq, hrec⟩
        · subst hBc
          obtain ⟨hde, hdb2⟩ := equalMask_iff.mp heq
          rw [hcm] at hde hdb2
          have hde2 : d.ones = current.mask.ones + 1 := hde
          have hdb3 : d.bits = current.mask.bits := hdb2
          have hBo : B.mask.ones = current.mask.ones + 1 := by rw [hcm]
          have hBb : B.mask.bits = current.mask.bits := by rw [hcm]
          exact ⟨by omega, by omega, hdb3, by omega, by omega⟩
        · have := ih c d used B hrec
          obtain ⟨e1, e2, e3, e4, e5⟩ := this
          have hco : c.mask.ones = current.mask.ones + 1 := by rw [hcm]
          have hcb : c.mask.bits = current.mask.bits := by rw [hcm]
          exact ⟨e1, e2, by omega, by omega, e5⟩
      rcases chain2_some h with h1 | ⟨h1, h2⟩
      · exact hstep c1 hm1 _ h1 rfl
      · exact hstep c2 hm2 _ h2 rfl

/-- A block returned by the search passed its own leaf checks: it matches
no used block exactly and contains no used block. -/
theorem evalAux_some_checks :
    ∀ (n : ℕ) (current : IPNet) (d : Mask) (used : List IPNet) (B : IPNet),
      evalAux n current d used = .ok (some B) →
      MatchesExistingCidr B used = false ∧ ContainsExistingCidr B used = false := by
  intro n
  induction n with
  | zero =>
    intro current d used B h
    cases hc : ChildCidrs current with
    | error e =>
      rw [evalAux_error hc 0 d used] at h
      exact absurd h (by simp)
    | ok p =>
      obtain ⟨c1, c2⟩ := p
      rw [evalAux_zero hc d used] at h
      exact absurd h (by simp)
  | succ m ih =>
    intro current d used B h
    cases hc : ChildCidrs current with
    | error e =>
      rw [evalAux_error hc (m + 1) d used] at h
      exact absurd h (by simp)
    | ok p =>
      obtain ⟨c1, c2⟩ := p
      rw [evalAux_succ hc m d used] at h
      have hstep : ∀ c : IPNet, childTry (evalAux m c d used) c d used = .ok (some B) →
          MatchesExistingCidr B used = false ∧ ContainsExistingCidr B used = false := by
        intro c hct
        rcases childTry_some hct with ⟨hmm, heq, hcon, hBc⟩ | ⟨hmm, hneq, hrec⟩
        · subst hBc
          exact ⟨hmm, hcon⟩
        · exact ih c d used B hrec
      rcases chain2_some h with h1 | ⟨h1, h2⟩
      · exact hstep c1 h1
      · exact hstep c2 h2

/-- A well-formed block is numerically well formed at its own stored
length. -/
theorem wfcidr_wfv {b : IPNet} (h : WFCidr b) : WFV b.ip.len b := by
  obtain ⟨hf, hv, hb, ho, hd⟩ := h
  refine ⟨rfl, hv, hb, by omega, ?_⟩
  rw [← hb]
  exact hd

/-- The end of a well-formed block range stays within the address
space. -/
theorem range_end_leW {L : ℕ} {u : IPNet} (hu : WFV L u) :
    u.ip.val + 2 ^ (8 * L - u.mask.ones) ≤ 2 ^ (8 * L) := by
  obtain ⟨hl, hv, hb, ho, hd⟩ := hu
  exact aligned_add_le hd (pow_dvd_pow 2 (Nat.sub_le _ _)) hv

theorem wfv_child1 {L : ℕ} {c : IPNet} (hc : WFV L c) (h : c.mask.ones < 8 * L) :
    WFV L ⟨c.ip, ⟨c.mask.ones + 1, c.mask.bits⟩⟩ := by
  obtain ⟨hl, hv, hb, ho, hd⟩ := hc
  refine ⟨hl, hv, hb, ?_, ?_⟩
  · show c.mask.ones + 1 ≤ 8 * L
    omega
  · show 2 ^ (8 * L - (c.mask.ones + 1)) ∣ c.ip.val
    exact dvd_trans (pow_dvd_pow 2 (by omega)) hd

theorem wfv_child2 {L : ℕ} {c : IPNet} (hc : WFV L c) (h : c.mask.ones < 8 * L) :
    WFV L ⟨⟨c.ip.len, c.ip.val + 2 ^ (8 * L - (c.mask.ones + 1))⟩,
      ⟨c.mask.ones + 1, c.mask.bits⟩⟩ := by
  have hend := range_end_leW hc
  obtain ⟨hl, hv, hb, ho, hd⟩ := hc
  have hlt : (2 : ℕ) ^ (8 * L - (c.mask.ones + 1)) < 2 ^ (8 * L - c.mask.ones) := by
    apply Nat.pow_lt_pow_right (by norm_num)
    omega
  refine ⟨hl, ?_, hb, ?_, ?_⟩
  · show c.ip.val + 2 ^ (8 * L - (c.mask.ones + 1)) < 2 ^ (8 * L)
    omega
  · show c.mask.ones + 1 ≤ 8 * L
    omega
  · show 2 ^ (8 * L - (c.mask.ones + 1)) ∣ c.ip.val + 2 ^ (8 * L - (c.mask.ones + 1))
    apply dvd_add
    · exact dvd_trans (pow_dvd_pow 2 (by omega)) hd
    · exact dvd_refl _

/-- IPNet.contains on a well-formed 4-byte block is numeric range
membership. -/
theorem contains_iff4 {n : IPNet} {x : IP} (hl : n.ip.len = 4) (hv : n.ip.val < 2 ^ 32)
    (hb : n.mask.bits = 32) (ho : n.mask.ones ≤ 32) (hd : 2 ^ (32 - n.mask.ones) ∣ n.ip.val)
    (hx4 : x.len = 4) (hxv : x.val < 2 ^ 32) :
    n.contains x = true ↔
      (n.ip.val ≤ x.val ∧ x.val < n.ip.val + 2 ^ (32 - n.mask.ones)) := by
  have hk : 32 - n.mask.ones ≤ 32 := Nat.sub_le 32 n.mask.ones
  simp only [IPNet.contains, networkNumberAndMask, IP.to4, hl, hb, hx4, if_true,
    beq_iff_eq, maskVal]
  norm_num
  have e1 := land_mask hk hv
  have e2 := land_mask hk hxv
  norm_num at e1 e2
  rw [e1, e2, Nat.div_mul_cancel hd]
  exact aligned_eq_iff hd

/-- The 32-bit power as a literal, for rewriting the v4-in-v6 tests. -/
theorem pow32_num : (2 : ℕ) ^ 32 = 4294967296 := by norm_num

/-- IPNet.contains on a well-formed 16-byte block outside the v4-in-v6
range, tested on a 16-byte address outside that range, is numeric range
membership. -/
theorem contains_iff16 {n : IPNet} {x : IP} (hl : n.ip.len = 16) (hv : n.ip.val < 2 ^ 128)
    (hb : n.mask.bits = 128) (ho : n.mask.ones ≤ 128)
    (hd : 2 ^ (128 - n.mask.ones) ∣ n.ip.val) (hnm : n.ip.val / 2 ^ 32 ≠ 0xffff)
    (hx16 : x.len = 16) (hxv : x.val < 2 ^ 128) (hxm : x.val / 2 ^ 32 ≠ 0xffff) :
    n.contains x = true ↔
      (n.ip.val ≤ x.val ∧ x.val < n.ip.val + 2 ^ (128 - n.mask.ones)) := by
  rw [pow32_num] at hnm hxm
  have hk : 128 - n.mask.ones ≤ 128 := Nat.sub_le 128 n.mask.ones
  have hnet : networkNumberAndMask n = some (n.ip, maskVal n.mask.ones 128) := by
    simp [networkNumberAndMask, IP.to4, hl, hb, hnm]
  have hx4 : x.to4 = none := by
    simp [IP.to4, hx16, hxm]
  simp only [IPNet.contains, hnet, hx4, hx16, hl, beq_iff_eq, maskVal]
  norm_num
  have e1 := land_mask hk hv
  have e2 := land_mask hk hxv
  norm_num at e1 e2
  rw [e1, e2, Nat.div_mul_cancel hd]
  exact aligned_eq_iff hd

/-- IPNet.contains over either family, on a same-family address outside
the v4-in-v6 range, is numeric range membership. -/
theorem contains_mem {L : ℕ} {n : IPNet} {x : IP} (hL : L = 4 ∨ L = 16)
    (hn : WFV L n) (hnm : L = 16 → n.ip.val / 2 ^ 32 ≠ 0xffff)
    (hx : x.len = L) (hxv : x.val < 2 ^ (8 * L))
    (hxm : L = 16 → x.val / 2 ^ 32 ≠ 0xffff) :
    n.contains x = true ↔
      (n.ip.val ≤ x.val ∧ x.val < n.ip.val + 2 ^ (8 * L - n.mask.ones)) := by
  obtain ⟨hl, hv, hb, ho, hd⟩ := hn
  rcases hL with h4 | h16
  · subst h4
    rw [show (8 : ℕ) * 4 = 32 from by norm_num] at hv hb ho hd hxv ⊢
    exact contains_iff4 hl hv hb ho hd hx hxv
  · subst h16
    rw [show (8 : ℕ) * 16 = 128 from by norm_num] at hv hb ho hd hxv ⊢
    exact contains_iff16 hl hv hb ho hd (hnm rfl) hx hxv (hxm rfl)

/-- A 16-byte block whose address lies in the v4-in-v6 range never
contains a 16-byte address outside that range: the network number is
normalized to 4 bytes and the length comparison fails. -/
theorem contains_mapped_false {n : IPNet} {x : IP} (hn16 : n.ip.len = 16)
    (hnb : n.mask.bits = 128) (hnm : n.ip.val / 2 ^ 32 = 0xffff)
    (hx16 : x.len = 16) (hxm : x.val / 2 ^ 32 ≠ 0xffff) :
    n.contains x = false := by
  rw [pow32_num] at hnm hxm
  simp [IPNet.contains, networkNumberAndMask, IP.to4, hn16, hnb, hnm, hx16, hxm]

/-- A 16-byte block outside the v4-in-v6 range contains only addresses
outside that range: a mapped candidate is normalized to 4 bytes and fails
the length comparison. -/
theorem contains_true_unmapped {n : IPNet} {x : IP} (hn16 : n.ip.len = 16)
    (hnb : n.mask.bits = 128) (hnm : n.ip.val / 2 ^ 32 ≠ 0xffff) (hx16 : x.len = 16)
    (h : n.contains x = true) : x.val / 2 ^ 32 ≠ 0xffff := by
  intro hmap
  rw [pow32_num] at hnm hmap
  rw [show n.contains x = false from by
    simp [IPNet.contains, networkNumberAndMask, IP.to4, hn16, hnb, hnm, hx16, hmap]] at h
  exact absurd h (by simp)

/-- A block of one family never contains the stored address of the other
family (with 16-byte addresses outside the v4-in-v6 range): the length
comparison fails whatever the block. -/
theorem contains_true_len {n : IPNet} {x : IP}
    (hn : n.ip.len = 4 ∨ (n.ip.len = 16 ∧ n.ip.val / 2 ^ 32 ≠ 0xffff))
    (hx : x.len = 4 ∨ (x.len = 16 ∧ x.val / 2 ^ 32 ≠ 0xffff))
    (h : n.contains x = true) : x.len = n.ip.len := by
  rcases hn with hn4 | ⟨hn16, hnm⟩ <;> rcases hx with hx4 | ⟨hx16, hxm⟩
  · rw [hn4, hx4]
  · exfalso
    rw [pow32_num] at hxm
    by_cases hb32 : n.mask.bits = 32
    · rw [show n.contains x = false from by
        simp [IPNet.contains, networkNumberAndMask, IP.to4, hn4, hb32, hx16, hxm]] at h
      exact absurd h (by simp)
    · by_cases hb128 : n.mask.bits = 128
      · rw [show n.contains x = false from by
          simp [IPNet.contains, networkNumberAndMask, IP.to4, hn4, hb32, hb128,
            hx16, hxm]] at h
        exact absurd h (by simp)
      · rw [show n.contains x = false from by
          simp [IPNet.contains, networkNumberAndMask, IP.to4, hn4, hb32, hb128]] at h
        exact absurd h (by simp)
  · exfalso
    rw [pow32_num] at hnm
    by_cases hb32 : n.mask.bits = 32
    · rw [show n.contains x = false from by
        simp [IPNet.contains, networkNumberAndMask, IP.to4, hn16, hnm, hb32, hx4]] at h
      exact absurd h (by simp)
    · by_cases hb128 : n.mask.bits = 128
      · rw [show n.contains x = false from by
          simp [IPNet.contains, networkNumberAndMask, IP.to4, hn16, hnm, hb32, hb128,
            hx4]] at h
        exact absurd h (by simp)
      · rw [show n.contains x = false from by
          simp [IPNet.contains, networkNumberAndMask, IP.to4, hn16, hnm, hb32,
            hb128]] at h
        exact absurd h (by simp)
  · rw [hx16, hn16]

/-- Basic soundness of the recursive search over either family width: a
returned block has the desired mask, is well formed, lies inside the
current block, and neither equals nor contains any used block. -/
theorem eval_basicW {L : ℕ} {d : Mask} {used : List IPNet}
    (hdb : d.bits = 8 * L) (hdo : d.ones ≤ 8 * L) :
    ∀ (k : ℕ) (current : IPNet), d.ones - current.mask.ones = k →
      WFV L current → current.mask.ones < d.ones →
      ∀ B, evaluateChildren current d used = .ok (some B) →
        B.mask.ones = d.ones ∧ B.mask.bits = 8 * L ∧ WFV L B ∧
        current.ip.val ≤ B.ip.val ∧
        B.ip.val + 2 ^ (8 * L - d.ones) ≤ current.ip.val + 2 ^ (8 * L - current.mask.ones) ∧
        ∀ u ∈ used, EqualCIDRs B u = false ∧ ContainsCidr B u = false := by
  intro k
  induction k using Nat.strong_induction_on with
  | _ k IH =>
    intro current hk hwf hlt B hB
    have hbW : current.mask.bits = 8 * L := hwf.2.2.1
    have hoW : current.mask.ones < 8 * L := by omega
    have hltb : current.mask.ones < current.mask.bits := by omega
    have hble : current.mask.bits = 8 * current.ip.len := by
      rw [hbW, hwf.1]
    have hdvb : 2 ^ (current.mask.bits - current.mask.ones) ∣ current.ip.val := by
      rw [hbW]
      exact hwf.2.2.2.2
    rw [evaluateChildren_eq, childCidrs_ok hltb, child2_valW hble hdvb hltb] at hB
    have hexp : current.mask.bits - (current.mask.ones + 1) =
        8 * L - (current.mask.ones + 1) := by omega
    rw [hexp] at hB
    have hwf1 := wfv_child1 hwf hoW
    have hwf2 := wfv_child2 hwf hoW
    have hpow : 2 ^ (8 * L - (current.mask.ones + 1)) + 2 ^ (8 * L - (current.mask.ones + 1)) =
        2 ^ (8 * L - current.mask.ones) := by
      have h32 : 8 * L - current.mask.ones = (8 * L - (current.mask.ones + 1)) + 1 := by omega
      rw [h32, pow_succ]
      ring
    rcases chain2_some hB with h1 | ⟨h1, h2⟩
    · rcases childTry_some h1 with ⟨hm1, heq, hcon, hBc⟩ | ⟨hm1, hneq, hrec⟩
      · subst hBc
        obtain ⟨hde, hdb2⟩ := equalMask_iff.mp heq
        have hmono : (2 : ℕ) ^ (8 * L - d.ones) ≤ 2 ^ (8 * L - current.mask.ones) :=
          Nat.pow_le_pow_right (by norm_num) (by omega)
        refine ⟨hde.symm, hbW, hwf1, le_refl _, by simpa using hmono, ?_⟩
        intro u hu
        exact ⟨matches_false_iff.mp hm1 u hu, containsEx_false_iff.mp hcon u hu⟩
      · have hmproj :
            (⟨current.ip, ⟨current.mask.ones + 1, current.mask.bits⟩⟩ : IPNet).mask
              = ⟨current.mask.ones + 1, current.mask.bits⟩ := rfl
        rw [hmproj] at hneq
        have hlt1 : current.mask.ones + 1 < d.ones := by
          by_contra hcon2
          have he : d.ones = current.mask.ones + 1 := by omega
          have ht : EqualMask d (⟨current.mask.ones + 1, current.mask.bits⟩ : Mask) = true := by
            rw [equalMask_iff]
            refine ⟨he, ?_⟩
            show d.bits = current.mask.bits
            omega
          rw [ht] at hneq
          simp at hneq
        have hk1 : d.ones - (current.mask.ones + 1) < k := by omega
        have := IH _ hk1 _ rfl hwf1 (by simpa using hlt1) B hrec
        obtain ⟨e1, e2, e3, e4, e5, e6⟩ := this
        have hmono : (2 : ℕ) ^ (8 * L - (current.mask.ones + 1)) ≤
            2 ^ (8 * L - current.mask.ones) :=
          Nat.pow_le_pow_right (by norm_num) (by omega)
        refine ⟨e1, e2, e3, by simpa using e4, ?_, e6⟩
        have e5s : B.ip.val + 2 ^ (8 * L - d.ones) ≤
            current.ip.val + 2 ^ (8 * L - (current.mask.ones + 1)) := by simpa using e5
        omega
    · rcases childTry_some h2 with ⟨hm2, heq, hcon, hBc⟩ | ⟨hm2, hneq, hrec⟩
      · subst hBc
        obtain ⟨hde, hdb2⟩ := equalMask_iff.mp heq
        have hde2 : d.ones = current.mask.ones + 1 := hde
        have h32d : 8 * L - d.ones = 8 * L - (current.mask.ones + 1) := by omega
        refine ⟨hde.symm, hbW, hwf2, ?_, ?_, ?_⟩
        · simp
        · simp only [h32d]
          omega
        · intro u hu
          exact ⟨matches_false_iff.mp hm2 u hu, containsEx_false_iff.mp hcon u hu⟩
      · have hmproj :
            (⟨⟨current.ip.len, current.ip.val + 2 ^ (8 * L - (current.mask.ones + 1))⟩,
              ⟨current.mask.ones + 1, current.mask.bits⟩⟩ : IPNet).mask
              = ⟨current.mask.ones + 1, current.mask.bits⟩ := rfl
        rw [hmproj] at hneq
        have hlt1 : current.mask.ones + 1 < d.ones := by
          by_contra hcon2
          have he : d.ones = current.mask.ones + 1 := by omega
          have ht : EqualMask d (⟨current.mask.ones + 1, current.mask.bits⟩ : Mask) = true := by
            rw [equalMask_iff]
            refine ⟨he, ?_⟩
            show d.bits = current.mask.bits
            omega
          rw [ht] at hneq
          simp at hneq
        have hk1 : d.ones - (current.mask.ones + 1) < k := by omega
        have := IH _ hk1 _ rfl hwf2 (by simpa using hlt1) B hrec
        obtain ⟨e1, e2, e3, e4, e5, e6⟩ := this
        have e4s : current.ip.val + 2 ^ (8 * L - (current.mask.ones + 1)) ≤ B.ip.val := by
          simpa using e4
        have e5s : B.ip.val + 2 ^ (8 * L - d.ones) ≤
            current.ip.val + 2 ^ (8 * L - (current.mask.ones + 1)) +
              2 ^ (8 * L - (current.mask.ones + 1)) := by simpa using e5
        refine ⟨e1, e2, e3, le_trans (Nat.le_add_right _ _) e4s, ?_, e6⟩
        omega

/-- If no used block's range encloses the current block's range and the
child is not an exact match of a used block, then no used block's range
encloses the child's range. -/
theorem inv_child_sem {L : ℕ} {current child : IPNet} {used : List IPNet}
    (hwf : WFV L current) (hwfc : WFV L child)
    (hco : child.mask.ones = current.mask.ones + 1)
    (hlo : current.ip.val ≤ child.ip.val)
    (hhi : child.ip.val + 2 ^ (8 * L - child.mask.ones) ≤
      current.ip.val + 2 ^ (8 * L - current.mask.ones))
    (hused : ∀ u ∈ used, WFV L u)
    (hinv : ∀ u ∈ used, ¬(u.ip.val ≤ current.ip.val ∧
      current.ip.val + 2 ^ (8 * L - current.mask.ones) ≤
        u.ip.val + 2 ^ (8 * L - u.mask.ones)))
    (hm : MatchesExistingCidr child used = false) :
    ∀ u ∈ used, ¬(u.ip.val ≤ child.ip.val ∧
      child.ip.val + 2 ^ (8 * L - child.mask.ones) ≤
        u.ip.val + 2 ^ (8 * L - u.mask.ones)) := by
  intro u hu hcont2
  obtain ⟨hui1, hui2⟩ := hcont2
  have hposc : (1 : ℕ) ≤ 2 ^ (8 * L - child.mask.ones) := two_pow_pos' _
  rcases Nat.lt_trichotomy u.mask.ones child.mask.ones with hult | hueq | hugt
  · have hij : 8 * L - current.mask.ones ≤ 8 * L - u.mask.ones := by omega
    have hdy := dyadic hij hwf.2.2.2.2 (hused u hu).2.2.2.2 hlo
      (by omega) hui1 (by omega)
    exact hinv u hu ⟨hdy.1, hdy.2⟩
  · have hsz : 8 * L - u.mask.ones = 8 * L - child.mask.ones := by omega
    have hvals : u.ip.val = child.ip.val := by
      rw [hsz] at hui2
      omega
    have hlen : child.ip.len = u.ip.len := by
      have h1 := hwfc.1
      have h2 := (hused u hu).1
      omega
    have : EqualCIDRs child u = true := by
      rw [equalCIDRs_len_iff hlen]
      refine ⟨hvals.symm, by omega, ?_⟩
      have h1 := hwfc.2.2.1
      have h2 := (hused u hu).2.2.1
      omega
    rw [matches_false_iff.mp hm u hu] at this
    exact absurd this (by simp)
  · have hsz : (2 : ℕ) ^ (8 * L - u.mask.ones) < 2 ^ (8 * L - child.mask.ones) := by
      apply Nat.pow_lt_pow_right (by norm_num)
      have h1 := hwfc.2.2.2.1
      have h2 := (hused u hu).2.2.2.1
      omega
    omega

/-- Under the invariant that no used block's range encloses the current
block's range, the range of a returned block is enclosed in no used
block's range. -/
theorem eval_contained_sem {L : ℕ} {d : Mask} {used : List IPNet}
    (hdb : d.bits = 8 * L) (hdo : d.ones ≤ 8 * L)
    (hused : ∀ u ∈ used, WFV L u) :
    ∀ (k : ℕ) (current : IPNet), d.ones - current.mask.ones = k →
      WFV L current → current.mask.ones < d.ones →
      (∀ u ∈ used, ¬(u.ip.val ≤ current.ip.val ∧
        current.ip.val + 2 ^ (8 * L - current.mask.ones) ≤
          u.ip.val + 2 ^ (8 * L - u.mask.ones))) →
      ∀ B, evaluateChildren current d used = .ok (some B) →
        ∀ u ∈ used, ¬(u.ip.val ≤ B.ip.val ∧
          B.ip.val + 2 ^ (8 * L - B.mask.ones) ≤
            u.ip.val + 2 ^ (8 * L - u.mask.ones)) := by
  intro k
  induction k using Nat.strong_induction_on with
  | _ k IH =>
    intro current hk hwf hlt hinv B hB
    have hbW : current.mask.bits = 8 * L := hwf.2.2.1
    have hoW : current.mask.ones < 8 * L := by omega
    have hltb : current.mask.ones < current.mask.bits := by omega
    have hble : current.mask.bits = 8 * current.ip.len := by
      rw [hbW, hwf.1]
    have hdvb : 2 ^ (current.mask.bits - current.mask.ones) ∣ current.ip.val := by
      rw [hbW]
      exact hwf.2.2.2.2
    rw [evaluateChildren_eq, childCidrs_ok hltb, child2_valW hble hdvb hltb] at hB
    have hexp : current.mask.bits - (current.mask.ones + 1) =
        8 * L - (current.mask.ones + 1) := by omega
    rw [hexp] at hB
    have hwf1 := wfv_child1 hwf hoW
    have hwf2 := wfv_child2 hwf hoW
    have hpow : 2 ^ (8 * L - (current.mask.ones + 1)) + 2 ^ (8 * L - (current.mask.ones + 1)) =
        2 ^ (8 * L - current.mask.ones) := by
      have h32 : 8 * L - current.mask.ones = (8 * L - (current.mask.ones + 1)) + 1 := by omega
      rw [h32, pow_succ]
      ring
    have hc1lo : current.ip.val ≤
        (⟨current.ip, ⟨current.mask.ones + 1, current.mask.bits⟩⟩ : IPNet).ip.val :=
      le_refl _
    have hc1hi :
        (⟨current.ip, ⟨current.mask.ones + 1, current.mask.bits⟩⟩ : IPNet).ip.val +
            2 ^ (8 * L - (⟨current.ip,
              ⟨current.mask.ones + 1, current.mask.bits⟩⟩ : IPNet).mask.ones) ≤
          current.ip.val + 2 ^ (8 * L - current.mask.ones) := by
      show current.ip.val + 2 ^ (8 * L - (current.mask.ones + 1)) ≤
        current.ip.val + 2 ^ (8 * L - current.mask.ones)
      have hmono : (2 : ℕ) ^ (8 * L - (current.mask.ones + 1)) ≤
          2 ^ (8 * L - current.mask.ones) :=
        Nat.pow_le_pow_right (by norm_num) (by omega)
      omega
    have hc2lo : current.ip.val ≤
        (⟨⟨current.ip.len, current.ip.val + 2 ^ (8 * L - (current.mask.ones + 1))⟩,
          ⟨current.mask.ones + 1, current.mask.bits⟩⟩ : IPNet).ip.val := by
      show current.ip.val ≤ current.ip.val + 2 ^ (8 * L - (current.mask.ones + 1))
      exact Nat.le_add_right _ _
    have hc2hi :
        (⟨⟨current.ip.len, current.ip.val + 2 ^ (8 * L - (current.mask.ones + 1))⟩,
            ⟨current.mask.ones + 1, current.mask.bits⟩⟩ : IPNet).ip.val +
            2 ^ (8 * L - (⟨⟨current.ip.len,
              current.ip.val + 2 ^ (8 * L - (current.mask.ones + 1))⟩,
              ⟨current.mask.ones + 1, current.mask.bits⟩⟩ : IPNet).mask.ones) ≤
          current.ip.val + 2 ^ (8 * L - current.mask.ones) := by
      show current.ip.val + 2 ^ (8 * L - (current.mask.ones + 1)) +
          2 ^ (8 * L - (current.mask.ones + 1)) ≤
        current.ip.val + 2 ^ (8 * L - current.mask.ones)
      omega
    rcases chain2_some hB with h1 | ⟨h1, h2⟩
    · rcases childTry_some h1 with ⟨hm1, heq, hcon, hBc⟩ | ⟨hm1, hneq, hrec⟩
      · subst hBc
        exact inv_child_sem hwf hwf1 rfl hc1lo hc1hi hused hinv hm1
      · have hinv1 := inv_child_sem hwf hwf1 rfl hc1lo hc1hi hused hinv hm1
        have hlt1 : current.mask.ones + 1 < d.ones := by
          by_contra hcon2
          have he : d.ones = current.mask.ones + 1 := by omega
          have hmproj :
              (⟨current.ip, ⟨current.mask.ones + 1, current.mask.bits⟩⟩ : IPNet).mask
                = ⟨current.mask.ones + 1, current.mask.bits⟩ := rfl
          rw [hmproj] at hneq
          have ht : EqualMask d (⟨current.mask.ones + 1, current.mask.bits⟩ : Mask) = true := by
            rw [equalMask_iff]
            refine ⟨he, ?_⟩
            show d.bits = current.mask.bits
            omega
          rw [ht] at hneq
          simp at hneq
        have hk1 : d.ones - (current.mask.ones + 1) < k := by omega
        exact IH _ hk1 _ rfl hwf1 (by simpa using hlt1) hinv1 B hrec
    · rcases childTry_some h2 with ⟨hm2, heq, hcon, hBc⟩ | ⟨hm2, hneq, hrec⟩
      · subst hBc
        exact inv_child_sem hwf hwf2 rfl hc2lo hc2hi hused hinv hm2
      · have hinv2 := inv_child_sem hwf hwf2 rfl hc2lo hc2hi hused hinv hm2
        have hlt1 : current.mask.ones + 1 < d.ones := by
          by_contra hcon2
          have he : d.ones = current.mask.ones + 1 := by omega
          have hmproj :
              (⟨⟨current.ip.len, current.ip.val + 2 ^ (8 * L - (current.mask.ones + 1))⟩,
                ⟨current.mask.ones + 1, current.mask.bits⟩⟩ : IPNet).mask
                = ⟨current.mask.ones + 1, current.mask.bits⟩ := rfl
          rw [hmproj] at hneq
          have ht : EqualMask d (⟨current.mask.ones + 1, current.mask.bits⟩ : Mask) = true := by
            rw [equalMask_iff]
            refine ⟨he, ?_⟩
            show d.bits = current.mask.bits
            omega
          rw [ht] at hneq
          simp at hneq
        have hk1 : d.ones - (current.mask.ones + 1) < k := by omega
        exact IH _ hk1 _ rfl hwf2 (by simpa using hlt1) hinv2 B hrec

/-- A well-formed candidate strictly finer than the current block lies
entirely in the lower half or entirely in the upper half. -/
theorem cand_splitW {L : ℕ} {current C : IPNet} (hwf : WFV L current) (hwfC : WFV L C)
    (hCo : current.mask.ones < C.mask.ones)
    (hlo : current.ip.val ≤ C.ip.val)
    (hhi : C.ip.val + 2 ^ (8 * L - C.mask.ones) ≤
      current.ip.val + 2 ^ (8 * L - current.mask.ones)) :
    (current.ip.val ≤ C.ip.val ∧
      C.ip.val + 2 ^ (8 * L - C.mask.ones) ≤
        current.ip.val + 2 ^ (8 * L - (current.mask.ones + 1))) ∨
    (current.ip.val + 2 ^ (8 * L - (current.mask.ones + 1)) ≤ C.ip.val ∧
      C.ip.val + 2 ^ (8 * L - C.mask.ones) ≤
        current.ip.val + 2 ^ (8 * L - current.mask.ones)) := by
  have ho32 : C.mask.ones ≤ 8 * L := hwfC.2.2.2.1
  by_cases hmid : C.ip.val < current.ip.val + 2 ^ (8 * L - (current.mask.ones + 1))
  · left
    have hij : 8 * L - C.mask.ones ≤ 8 * L - (current.mask.ones + 1) := by omega
    have hdvdc : (2 : ℕ) ^ (8 * L - (current.mask.ones + 1)) ∣ current.ip.val :=
      dvd_trans (pow_dvd_pow 2 (by omega)) hwf.2.2.2.2
    have hposC : (1 : ℕ) ≤ 2 ^ (8 * L - C.mask.ones) := two_pow_pos' _
    have hdy := dyadic hij hwfC.2.2.2.2 hdvdc (le_refl C.ip.val) (by omega) hlo hmid
    exact ⟨hlo, hdy.2⟩
  · right
    exact ⟨by omega, hhi⟩

/-- A pruned or rejected or exhausted child harbours no free candidate.
The recursive-descent case is discharged by the continuation hcont. -/
theorem child_none_coreW {L : ℕ} {d : Mask} {used : List IPNet} {child C : IPNet}
    (hL : L = 4 ∨ L = 16)
    (hused : ∀ u ∈ used, WFV L u ∧ (L = 16 → u.ip.val / 2 ^ 32 ≠ 0xffff ∧
      (u.ip.val + (2 ^ (8 * L - u.mask.ones) - 1)) / 2 ^ 32 ≠ 0xffff))
    (hwfc : WFV L child) (hwfC : WFV L C) (hCd : C.mask.ones = d.ones)
    (hlo : child.ip.val ≤ C.ip.val)
    (hhi : C.ip.val + 2 ^ (8 * L - C.mask.ones) ≤
      child.ip.val + 2 ^ (8 * L - child.mask.ones))
    (hfree : FreeFrom (8 * L) used C)
    (h : childTry (evaluateChildren child d used) child d used = .ok none)
    (hcont : EqualMask d child.mask = false →
      evaluateChildren child d used = .ok none → False) :
    False := by
  have hposC : (1 : ℕ) ≤ 2 ^ (8 * L - C.mask.ones) := two_pow_pos' _
  rcases childTry_none h with hm | ⟨hm, heq, hcon⟩ | ⟨hm, hneq, hrec⟩
  · rcases matches_true_iff.mp hm with ⟨u, hu, hequ⟩
    have hlen : child.ip.len = u.ip.len := by
      have h1 := hwfc.1
      have h2 := (hused u hu).1.1
      omega
    obtain ⟨hv, ho, hbits⟩ := (equalCIDRs_len_iff hlen).mp hequ
    have hszu : 8 * L - u.mask.ones = 8 * L - child.mask.ones := by omega
    rcases hfree u hu with hf | hf
    · omega
    · rw [hszu] at hf
      omega
  · rcases containsEx_true_iff.mp hcon with ⟨u, hu, hcu⟩
    obtain ⟨hwfu, hmapu⟩ := hused u hu
    rw [ContainsCidr] at hcu
    have har : AddressRange u =
        (u.ip, ⟨u.ip.len, u.ip.val + (2 ^ (u.mask.bits - u.mask.ones) - 1)⟩) :=
      addressRange_eqW (by rw [hwfu.2.2.1, hwfu.1])
        (by
          have h1 := hwfu.2.2.2.1
          have h2 := hwfu.2.2.1
          omega)
        (by
          rw [hwfu.2.2.1]
          exact hwfu.2.2.2.2)
    rw [har] at hcu
    simp only [Bool.and_eq_true] at hcu
    have hcu1 := hcu.1
    by_cases hmap : L = 16 ∧ child.ip.val / 2 ^ 32 = 0xffff
    · have hf : child.contains u.ip = false := by
        refine contains_mapped_false ?_ ?_ hmap.2 ?_ ?_
        · have h1 := hwfc.1
          have h2 := hmap.1
          omega
        · have h1 := hwfc.2.2.1
          have h2 := hmap.1
          omega
        · have h1 := hwfu.1
          have h2 := hmap.1
          omega
        · exact (hmapu hmap.1).1
      rw [hf] at hcu1
      exact absurd hcu1 (by simp)
    · have hnmc : L = 16 → child.ip.val / 2 ^ 32 ≠ 0xffff := by
        intro h16 hcm
        exact hmap ⟨h16, hcm⟩
      have hmem := (contains_mem hL hwfc hnmc hwfu.1 hwfu.2.1
        (fun h16 => (hmapu h16).1)).mp hcu1
      have hde : d.ones = child.mask.ones := (equalMask_iff.mp heq).1
      have hposu : (1 : ℕ) ≤ 2 ^ (8 * L - u.mask.ones) := two_pow_pos' _
      have hfu := hfree u hu
      have hsz : 8 * L - C.mask.ones = 8 * L - child.mask.ones := by omega
      rw [hsz] at hhi hfu
      omega
  · exact hcont hneq hrec

/-- If the search of a subtree comes back empty, the subtree holds no
free candidate of the desired mask. -/
theorem eval_noneW {L : ℕ} {d : Mask} {used : List IPNet} (hL : L = 4 ∨ L = 16)
    (hdb : d.bits = 8 * L) (hdo : d.ones ≤ 8 * L)
    (hused : ∀ u ∈ used, WFV L u ∧ (L = 16 → u.ip.val / 2 ^ 32 ≠ 0xffff ∧
      (u.ip.val + (2 ^ (8 * L - u.mask.ones) - 1)) / 2 ^ 32 ≠ 0xffff)) :
    ∀ (k : ℕ) (current : IPNet), d.ones - current.mask.ones = k →
      WFV L current → current.mask.ones < d.ones →
      evaluateChildren current d used = .ok none →
      ∀ C, WFV L C → C.mask.ones = d.ones →
        current.ip.val ≤ C.ip.val →
        C.ip.val + 2 ^ (8 * L - C.mask.ones) ≤
          current.ip.val + 2 ^ (8 * L - current.mask.ones) →
        FreeFrom (8 * L) used C → False := by
  intro k
  induction k using Nat.strong_induction_on with
  | _ k IH =>
    intro current hk hwf hlt hB C hwfC hCd hClo hChi hfree
    have hbW : current.mask.bits = 8 * L := hwf.2.2.1
    have hoW : current.mask.ones < 8 * L := by omega
    have hltb : current.mask.ones < current.mask.bits := by omega
    have hble : current.mask.bits = 8 * current.ip.len := by
      rw [hbW, hwf.1]
    have hdvb : 2 ^ (current.mask.bits - current.mask.ones) ∣ current.ip.val := by
      rw [hbW]
      exact hwf.2.2.2.2
    rw [evaluateChildren_eq, childCidrs_ok hltb, child2_valW hble hdvb hltb] at hB
    have hexp : current.mask.bits - (current.mask.ones + 1) =
        8 * L - (current.mask.ones + 1) := by omega
    rw [hexp] at hB
    obtain ⟨h1, h2⟩ := chain2_none hB
    have hwf1 := wfv_child1 hwf hoW
    have hwf2 := wfv_child2 hwf hoW
    have hpow : 2 ^ (8 * L - (current.mask.ones + 1)) + 2 ^ (8 * L - (current.mask.ones + 1)) =
        2 ^ (8 * L - current.mask.ones) := by
      have h32 : 8 * L - current.mask.ones = (8 * L - (current.mask.ones + 1)) + 1 := by omega
      rw [h32, pow_succ]
      ring
    have hCo : current.mask.ones < C.mask.ones := by omega
    rcases cand_splitW hwf hwfC hCo hClo hChi with ⟨hl1, hl2⟩ | ⟨hr1, hr2⟩
    · refine child_none_coreW hL hused hwf1 hwfC hCd hl1 ?_ hfree h1 ?_
      · show C.ip.val + 2 ^ (8 * L - C.mask.ones) ≤
          current.ip.val + 2 ^ (8 * L - (current.mask.ones + 1))
        exact hl2
      · intro hneq hrec
        have hmproj :
            (⟨current.ip, ⟨current.mask.ones + 1, current.mask.bits⟩⟩ : IPNet).mask
              = ⟨current.mask.ones + 1, current.mask.bits⟩ := rfl
        rw [hmproj] at hneq
        have hlt1 : current.mask.ones + 1 < d.ones := by
          by_contra hcon2
          have he : d.ones = current.mask.ones + 1 := by omega
          have ht : EqualMask d (⟨current.mask.ones + 1, current.mask.bits⟩ : Mask) = true := by
            rw [equalMask_iff]
            refine ⟨he, ?_⟩
            show d.bits = current.mask.bits
            omega
          rw [ht] at hneq
          simp at hneq
        have hk1 : d.ones - (current.mask.ones + 1) < k := by omega
        refine IH _ hk1 _ rfl hwf1 (by simpa using hlt1) hrec C hwfC hCd hl1 ?_ hfree
        show C.ip.val + 2 ^ (8 * L - C.mask.ones) ≤
          current.ip.val + 2 ^ (8 * L - (current.mask.ones + 1))
        exact hl2
    · refine child_none_coreW hL hused hwf2 hwfC hCd hr1 ?_ hfree h2 ?_
      · show C.ip.val + 2 ^ (8 * L - C.mask.ones) ≤
          current.ip.val + 2 ^ (8 * L - (current.mask.ones + 1)) +
            2 ^ (8 * L - (current.mask.ones + 1))
        omega
      · intro hneq hrec
        have hmproj :
            (⟨⟨current.ip.len, current.ip.val + 2 ^ (8 * L - (current.mask.ones + 1))⟩,
              ⟨current.mask.ones + 1, current.mask.bits⟩⟩ : IPNet).mask
              = ⟨current.mask.ones + 1, current.mask.bits⟩ := rfl
        rw [hmproj] at hneq
        have hlt1 : current.mask.ones + 1 < d.ones := by
          by_contra hcon2
          have he : d.ones = current.mask.ones + 1 := by omega
          have ht : EqualMask d (⟨current.mask.ones + 1, current.mask.bits⟩ : Mask) = true := by
            rw [equalMask_iff]
            refine ⟨he, ?_⟩
            show d.bits = current.mask.bits
            omega
          rw [ht] at hneq
          simp at hneq
        have hk1 : d.ones - (current.mask.ones + 1) < k := by omega
        refine IH _ hk1 _ rfl hwf2 (by simpa using hlt1) hrec C hwfC hCd hr1 ?_ hfree
        show C.ip.val + 2 ^ (8 * L - C.mask.ones) ≤
          current.ip.val + 2 ^ (8 * L - (current.mask.ones + 1)) +
            2 ^ (8 * L - (current.mask.ones + 1))
        omega

/-- Left-first minimality: the returned block has the lowest address among
the free candidates of the subtree. -/
theorem eval_minW {L : ℕ} {d : Mask} {used : List IPNet} (hL : L = 4 ∨ L = 16)
    (hdb : d.bits = 8 * L) (hdo : d.ones ≤ 8 * L)
    (hused : ∀ u ∈ used, WFV L u ∧ (L = 16 → u.ip.val / 2 ^ 32 ≠ 0xffff ∧
      (u.ip.val + (2 ^ (8 * L - u.mask.ones) - 1)) / 2 ^ 32 ≠ 0xffff)) :
    ∀ (k : ℕ) (current : IPNet), d.ones - current.mask.ones = k →
      WFV L current → current.mask.ones < d.ones →
      ∀ B, evaluateChildren current d used = .ok (some B) →
      ∀ C, WFV L C → C.mask.ones = d.ones →
        current.ip.val ≤ C.ip.val →
        C.ip.val + 2 ^ (8 * L - C.mask.ones) ≤
          current.ip.val + 2 ^ (8 * L - current.mask.ones) →
        FreeFrom (8 * L) used C → B.ip.val ≤ C.ip.val := by
  intro k
  induction k using Nat.strong_induction_on with
  | _ k IH =>
    intro current hk hwf hlt B hB C hwfC hCd hClo hChi hfree
    have hbW : current.mask.bits = 8 * L := hwf.2.2.1
    have hoW : current.mask.ones < 8 * L := by omega
    have hltb : current.mask.ones < current.mask.bits := by omega
    have hble : current.mask.bits = 8 * current.ip.len := by
      rw [hbW, hwf.1]
    have hdvb : 2 ^ (current.mask.bits - current.mask.ones) ∣ current.ip.val := by
      rw [hbW]
      exact hwf.2.2.2.2
    rw [evaluateChildren_eq, childCidrs_ok hltb, child2_valW hble hdvb hltb] at hB
    have hexp : current.mask.bits - (current.mask.ones + 1) =
        8 * L - (current.mask.ones + 1) := by omega
    rw [hexp] at hB
    have hwf1 := wfv_child1 hwf hoW
    have hwf2 := wfv_child2 hwf hoW
    have hpow : 2 ^ (8 * L - (current.mask.ones + 1)) + 2 ^ (8 * L - (current.mask.ones + 1)) =
        2 ^ (8 * L - current.mask.ones) := by
      have h32 : 8 * L - current.mask.ones = (8 * L - (current.mask.ones + 1)) + 1 := by omega
      rw [h32, pow_succ]
      ring
    have hCo : current.mask.ones < C.mask.ones := by omega
    have hposd : (1 : ℕ) ≤ 2 ^ (8 * L - d.ones) := two_pow_pos' _
    rcases chain2_some hB with h1 | ⟨h1, h2⟩
    · rcases childTry_some h1 with ⟨hm1, heq, hcon, hBc⟩ | ⟨hm1, hneq, hrec⟩
      · subst hBc
        exact hClo
      · have hmproj :
            (⟨current.ip, ⟨current.mask.ones + 1, current.mask.bits⟩⟩ : IPNet).mask
              = ⟨current.mask.ones + 1, current.mask.bits⟩ := rfl
        rw [hmproj] at hneq
        have hlt1 : current.mask.ones + 1 < d.ones := by
          by_contra hcon2
          have he : d.ones = current.mask.ones + 1 := by omega
          have ht : EqualMask d (⟨current.mask.ones + 1, current.mask.bits⟩ : Mask) = true := by
            rw [equalMask_iff]
            refine ⟨he, ?_⟩
            show d.bits = current.mask.bits
            omega
          rw [ht] at hneq
          simp at hneq
        have hk1 : d.ones - (current.mask.ones + 1) < k := by omega
        rcases cand_splitW hwf hwfC hCo hClo hChi with ⟨hl1, hl2⟩ | ⟨hr1, hr2⟩
        · refine IH _ hk1 _ rfl hwf1 (by simpa using hlt1) B hrec C hwfC hCd hl1 ?_ hfree
          show C.ip.val + 2 ^ (8 * L - C.mask.ones) ≤
            current.ip.val + 2 ^ (8 * L - (current.mask.ones + 1))
          exact hl2
        · have hbas := eval_basicW hdb hdo _ _ rfl hwf1 (by simpa using hlt1) B hrec
          have he5 : B.ip.val + 2 ^ (8 * L - d.ones) ≤
              current.ip.val + 2 ^ (8 * L - (current.mask.ones + 1)) := by
            simpa using hbas.2.2.2.2.1
          omega
    · rcases childTry_some h2 with ⟨hm2, heq, hcon, hBc⟩ | ⟨hm2, hneq, hrec⟩
      · subst hBc
        rcases cand_splitW hwf hwfC hCo hClo hChi with ⟨hl1, hl2⟩ | ⟨hr1, hr2⟩
        · exfalso
          refine child_none_coreW hL hused hwf1 hwfC hCd hl1 ?_ hfree h1 ?_
          · show C.ip.val + 2 ^ (8 * L - C.mask.ones) ≤
              current.ip.val + 2 ^ (8 * L - (current.mask.ones + 1))
            exact hl2
          · intro hneq1 hrec1
            have hmproj :
                (⟨current.ip, ⟨current.mask.ones + 1, current.mask.bits⟩⟩ : IPNet).mask
                  = ⟨current.mask.ones + 1, current.mask.bits⟩ := rfl
            rw [hmproj] at hneq1
            have hlt1 : current.mask.ones + 1 < d.ones := by
              by_contra hcon2
              have he : d.ones = current.mask.ones + 1 := by omega
              have ht : EqualMask d
                  (⟨current.mask.ones + 1, current.mask.bits⟩ : Mask) = true := by
                rw [equalMask_iff]
                refine ⟨he, ?_⟩
                show d.bits = current.mask.bits
                omega
              rw [ht] at hneq1
              simp at hneq1
            refine eval_noneW hL hdb hdo hused _ _ rfl hwf1 (by simpa using hlt1) hrec1
              C hwfC hCd hl1 ?_ hfree
            show C.ip.val + 2 ^ (8 * L - C.mask.ones) ≤
              current.ip.val + 2 ^ (8 * L - (current.mask.ones + 1))
            exact hl2
        · exact hr1
      · have hmproj :
            (⟨⟨current.ip.len, current.ip.val + 2 ^ (8 * L - (current.mask.ones + 1))⟩,
              ⟨current.mask.ones + 1, current.mask.bits⟩⟩ : IPNet).mask
              = ⟨current.mask.ones + 1, current.mask.bits⟩ := rfl
        rw [hmproj] at hneq
        have hlt1 : current.mask.ones + 1 < d.ones := by
          by_contra hcon2
          have he : d.ones = current.mask.ones + 1 := by omega
          have ht : EqualMask d (⟨current.mask.ones + 1, current.mask.bits⟩ : Mask) = true := by
            rw [equalMask_iff]
            refine ⟨he, ?_⟩
            show d.bits = current.mask.bits
            omega
          rw [ht] at hneq
          simp at hneq
        have hk1 : d.ones - (current.mask.ones + 1) < k := by omega
        rcases cand_splitW hwf hwfC hCo hClo hChi with ⟨hl1, hl2⟩ | ⟨hr1, hr2⟩
        · exfalso
          refine child_none_coreW hL hused hwf1 hwfC hCd hl1 ?_ hfree h1 ?_
          · show C.ip.val + 2 ^ (8 * L - C.mask.ones) ≤
              current.ip.val + 2 ^ (8 * L - (current.mask.ones + 1))
            exact hl2
          · intro hneq1 hrec1
            refine eval_noneW hL hdb hdo hused _ _ rfl hwf1 ?_ hrec1 C hwfC hCd hl1 ?_ hfree
            · show (⟨current.ip, ⟨current.mask.ones + 1,
                current.mask.bits⟩⟩ : IPNet).mask.ones < d.ones
              simpa using hlt1
            · show C.ip.val + 2 ^ (8 * L - C.mask.ones) ≤
                current.ip.val + 2 ^ (8 * L - (current.mask.ones + 1))
              exact hl2
        · refine IH _ hk1 _ rfl hwf2 (by simpa using hlt1) B hrec C hwfC hCd ?_ ?_ hfree
          · exact hr1
          · show C.ip.val + 2 ^ (8 * L - C.mask.ones) ≤
              current.ip.val + 2 ^ (8 * L - (current.mask.ones + 1)) +
                2 ^ (8 * L - (current.mask.ones + 1))
            omega

/-- ContainsCidr between same-family well-formed blocks outside the
v4-in-v6 range (with the contained block's last address also outside) is
interval inclusion. -/
theorem containsCidr_iffW {L : ℕ} {p u : IPNet} (hL : L = 4 ∨ L = 16)
    (hp : WFV L p) (hu : WFV L u)
    (hpm : L = 16 → p.ip.val / 2 ^ 32 ≠ 0xffff)
    (hum : L = 16 → u.ip.val / 2 ^ 32 ≠ 0xffff ∧
      (u.ip.val + (2 ^ (8 * L - u.mask.ones) - 1)) / 2 ^ 32 ≠ 0xffff) :
    ContainsCidr p u = true ↔
      (p.ip.val ≤ u.ip.val ∧
        u.ip.val + 2 ^ (8 * L - u.mask.ones) ≤ p.ip.val + 2 ^ (8 * L - p.mask.ones)) := by
  have hend := range_end_leW hu
  have h1 : (1 : ℕ) ≤ 2 ^ (8 * L - u.mask.ones) := two_pow_pos' _
  have hlast : u.ip.val + (2 ^ (8 * L - u.mask.ones) - 1) < 2 ^ (8 * L) := by omega
  rw [ContainsCidr]
  have har : AddressRange u =
      (u.ip, ⟨u.ip.len, u.ip.val + (2 ^ (u.mask.bits - u.mask.ones) - 1)⟩) :=
    addressRange_eqW (by rw [hu.2.2.1, hu.1])
      (by
        have h2 := hu.2.2.2.1
        have h3 := hu.2.2.1
        omega)
      (by
        rw [hu.2.2.1]
        exact hu.2.2.2.2)
  rw [har]
  have hexp : u.mask.bits - u.mask.ones = 8 * L - u.mask.ones := by
    have h2 := hu.2.2.1
    omega
  rw [hexp]
  simp only [Bool.and_eq_true]
  rw [contains_mem hL hp hpm hu.1 hu.2.1 (fun h16 => (hum h16).1)]
  have hiff2 := contains_mem hL hp hpm
    (show (⟨u.ip.len, u.ip.val + (2 ^ (8 * L - u.mask.ones) - 1)⟩ : IP).len = L from hu.1)
    (show (⟨u.ip.len, u.ip.val + (2 ^ (8 * L - u.mask.ones) - 1)⟩ : IP).val < 2 ^ (8 * L)
      from hlast)
    (fun h16 => (hum h16).2)
  rw [hiff2]
  simp only []
  have h2 : (1 : ℕ) ≤ 2 ^ (8 * L - p.mask.ones) := two_pow_pos' _
  omega

/-- Code-level trichotomy: two same-family well-formed blocks (with
first and last addresses outside the v4-in-v6 range) whose ranges
intersect are equal, or one contains the other. -/
theorem not_disjoint_casesW {L : ℕ} {C u : IPNet} (hL : L = 4 ∨ L = 16)
    (hwfC : WFV L C) (hwfu : WFV L u)
    (hCm : L = 16 → C.ip.val / 2 ^ 32 ≠ 0xffff ∧
      (C.ip.val + (2 ^ (8 * L - C.mask.ones) - 1)) / 2 ^ 32 ≠ 0xffff)
    (hum : L = 16 → u.ip.val / 2 ^ 32 ≠ 0xffff ∧
      (u.ip.val + (2 ^ (8 * L - u.mask.ones) - 1)) / 2 ^ 32 ≠ 0xffff)
    (hint : ¬(C.ip.val + 2 ^ (8 * L - C.mask.ones) ≤ u.ip.val ∨
      u.ip.val + 2 ^ (8 * L - u.mask.ones) ≤ C.ip.val)) :
    EqualCIDRs C u = true ∨ ContainsCidr C u = true ∨ ContainsCidr u C = true := by
  push_neg at hint
  obtain ⟨h1, h2⟩ := hint
  have hx1 : C.ip.val ≤ max C.ip.val u.ip.val := Nat.le_max_left _ _
  have hx2 : u.ip.val ≤ max C.ip.val u.ip.val := Nat.le_max_right _ _
  have hx3 : max C.ip.val u.ip.val < C.ip.val + 2 ^ (8 * L - C.mask.ones) := by
    rcases Nat.le_total C.ip.val u.ip.val with h | h
    · rw [Nat.max_eq_right h]
      omega
    · rw [Nat.max_eq_left h]
      have := two_pow_pos' (8 * L - C.mask.ones)
      omega
  have hx4 : max C.ip.val u.ip.val < u.ip.val + 2 ^ (8 * L - u.mask.ones) := by
    rcases Nat.le_total C.ip.val u.ip.val with h | h
    · rw [Nat.max_eq_right h]
      have := two_pow_pos' (8 * L - u.mask.ones)
      omega
    · rw [Nat.max_eq_left h]
      omega
  rcases Nat.lt_trichotomy C.mask.ones u.mask.ones with hlt | heq | hgt
  · right
    left
    have hij : 8 * L - u.mask.ones ≤ 8 * L - C.mask.ones := by
      have := hwfu.2.2.2.1
      omega
    have hdy := dyadic hij hwfu.2.2.2.2 hwfC.2.2.2.2 hx2 hx4 hx1 hx3
    rw [containsCidr_iffW hL hwfC hwfu (fun h16 => (hCm h16).1) hum]
    exact hdy
  · have hij : 8 * L - u.mask.ones ≤ 8 * L - C.mask.ones := by omega
    have hdy := dyadic hij hwfu.2.2.2.2 hwfC.2.2.2.2 hx2 hx4 hx1 hx3
    left
    have hlen : C.ip.len = u.ip.len := by
      have hc := hwfC.1
      have hu2 := hwfu.1
      omega
    rw [equalCIDRs_len_iff hlen]
    have hsz : 8 * L - u.mask.ones = 8 * L - C.mask.ones := by omega
    rw [hsz] at hdy
    refine ⟨by omega, heq, ?_⟩
    have hc := hwfC.2.2.1
    have hu2 := hwfu.2.2.1
    omega
  · right
    right
    have hij : 8 * L - C.mask.ones ≤ 8 * L - u.mask.ones := by
      have := hwfC.2.2.2.1
      omega
    have hdy := dyadic hij hwfC.2.2.2.2 hwfu.2.2.2.2 hx1 hx3 hx2 hx4
    rw [containsCidr_iffW hL hwfu hwfC (fun h16 => (hum h16).1) hCm]
    exact hdy

/-- Validation success against a well-formed root pins every used entry
to the root's family, keeps each entry's range inside the root's range,
and (for the 16-byte family) keeps each entry's last address outside the
v4-in-v6 range. -/
theorem verify_none_facts {usedCidrs : List IPNet} {rootCidr : IPNet}
    (hroot : WFCidr rootCidr) (hused : ∀ u ∈ usedCidrs, WFCidr u)
    (hv : VerifyNoOverlap usedCidrs rootCidr = none) :
    ∀ u ∈ usedCidrs, u.ip.len = rootCidr.ip.len ∧
      (rootCidr.ip.len = 16 →
        (u.ip.val + (2 ^ (8 * rootCidr.ip.len - u.mask.ones) - 1)) / 2 ^ 32 ≠ 0xffff) ∧
      rootCidr.ip.val ≤ u.ip.val ∧
      u.ip.val + 2 ^ (8 * rootCidr.ip.len - u.mask.ones) ≤
        rootCidr.ip.val + 2 ^ (8 * rootCidr.ip.len - rootCidr.mask.ones) := by
  intro u hu
  obtain ⟨n, hn⟩ := List.mem_iff_get.mp hu
  have hcc := verify_none_contains hv n.1 n.2
  rw [hn] at hcc
  rw [ContainsCidr] at hcc
  have hwfu := hused u hu
  have har : AddressRange u =
      (u.ip, ⟨u.ip.len, u.ip.val + (2 ^ (u.mask.bits - u.mask.ones) - 1)⟩) :=
    addressRange_eqW hwfu.2.2.1 hwfu.2.2.2.1 hwfu.2.2.2.2
  rw [har] at hcc
  simp only [Bool.and_eq_true] at hcc
  obtain ⟨hc1, hc2⟩ := hcc
  have hL : rootCidr.ip.len = 4 ∨ rootCidr.ip.len = 16 := by
    rcases hroot.1 with h | h
    · exact Or.inl h
    · exact Or.inr h.1
  have hlen : u.ip.len = rootCidr.ip.len := contains_true_len hroot.1 hwfu.1 hc1
  have hwvroot : WFV rootCidr.ip.len rootCidr := wfcidr_wfv hroot
  have hwvu : WFV rootCidr.ip.len u := by
    have := wfcidr_wfv hwfu
    rw [hlen] at this
    exact this
  have hexp : u.mask.bits - u.mask.ones = 8 * rootCidr.ip.len - u.mask.ones := by
    have h2 := hwvu.2.2.1
    omega
  have hrnm : rootCidr.ip.len = 16 → rootCidr.ip.val / 2 ^ 32 ≠ 0xffff := by
    intro h16
    rcases hroot.1 with h | h
    · omega
    · exact h.2
  have hlast : rootCidr.ip.len = 16 →
      (u.ip.val + (2 ^ (8 * rootCidr.ip.len - u.mask.ones) - 1)) / 2 ^ 32 ≠ 0xffff := by
    intro h16
    have hxlen : (⟨u.ip.len, u.ip.val + (2 ^ (u.mask.bits - u.mask.ones) - 1)⟩ : IP).len
        = 16 := by
      show u.ip.len = 16
      omega
    have := contains_true_unmapped (by omega)
      (by
        have h2 := hroot.2.2.1
        omega)
      (hrnm h16) hxlen hc2
    rw [hexp] at this
    exact this
  have hunm : rootCidr.ip.len = 16 → u.ip.val / 2 ^ 32 ≠ 0xffff := by
    intro h16
    rcases hwfu.1 with h | h
    · omega
    · exact h.2
  have hend := range_end_leW hwvu
  have hpos : (1 : ℕ) ≤ 2 ^ (8 * rootCidr.ip.len - u.mask.ones) := two_pow_pos' _
  have hm1 := (contains_mem hL hwvroot hrnm hwvu.1 hwvu.2.1 hunm).mp hc1
  have hm2 := (contains_mem hL hwvroot hrnm
    (by
      show u.ip.len = rootCidr.ip.len
      exact hlen)
    (by
      show u.ip.val + (2 ^ (u.mask.bits - u.mask.ones) - 1) < 2 ^ (8 * rootCidr.ip.len)
      rw [hexp]
      omega)
    (by
      intro h16
      show (u.ip.val + (2 ^ (u.mask.bits - u.mask.ones) - 1)) / 2 ^ 32 ≠ 0xffff
      rw [hexp]
      exact hlast h16)).mp hc2
  refine ⟨hlen, hlast, hm1.1, ?_⟩
  have hm2' := hm2.2
  simp only [hexp] at hm2'
  omega

/-- Canonical membership unfolded at the two stored lengths: for a 4-byte
block the canonical start is the widened address, for a 16-byte block it
is the address itself. -/
theorem memRange_shift {u : IPNet} {x : ℕ} (h : memRange u x) :
    (u.ip.len = 4 → 0xffff * 2 ^ 32 ≤ x ∧ u.ip.val ≤ x - 0xffff * 2 ^ 32 ∧
      x - 0xffff * 2 ^ 32 < u.ip.val + 2 ^ (u.mask.bits - u.mask.ones)) ∧
    (u.ip.len = 16 → u.ip.val ≤ x ∧ x < u.ip.val + 2 ^ (u.mask.bits - u.mask.ones)) := by
  obtain ⟨s, hs, h1, h2⟩ := h
  constructor
  · intro h4
    simp only [canonVal, h4, if_true, Option.some.injEq] at hs
    norm_num at hs
    omega
  · intro h16
    simp only [canonVal, h16, Option.some.injEq] at hs
    norm_num at hs
    omega

/-- Two same-family blocks sharing a numeric address: the coarser one
contains the finer one's stored address. -/
theorem overlap_detected {L : ℕ} (hL : L = 4 ∨ L = 16) {a b : IPNet}
    (ha : WFV L a) (hb : WFV L b)
    (ham : L = 16 → a.ip.val / 2 ^ 32 ≠ 0xffff) (hbm : L = 16 → b.ip.val / 2 ^ 32 ≠ 0xffff)
    {y : ℕ} (hya : a.ip.val ≤ y ∧ y < a.ip.val + 2 ^ (8 * L - a.mask.ones))
    (hyb : b.ip.val ≤ y ∧ y < b.ip.val + 2 ^ (8 * L - b.mask.ones)) :
    a.contains b.ip = true ∨ b.contains a.ip = true := by
  rcases Nat.le_total a.mask.ones b.mask.ones with hle | hle
  · left
    have hij : 8 * L - b.mask.ones ≤ 8 * L - a.mask.ones := by
      have := hb.2.2.2.1
      omega
    have hdy := dyadic hij hb.2.2.2.2 ha.2.2.2.2 hyb.1 hyb.2 hya.1 hya.2
    rw [contains_mem hL ha ham hb.1 hb.2.1 hbm]
    refine ⟨hdy.1, ?_⟩
    have := two_pow_pos' (8 * L - b.mask.ones)
    omega
  · right
    have hij : 8 * L - a.mask.ones ≤ 8 * L - b.mask.ones := by
      have := ha.2.2.2.1
      omega
    have hdy := dyadic hij ha.2.2.2.2 hb.2.2.2.2 hya.1 hya.2 hyb.1 hyb.2
    rw [contains_mem hL hb hbm ha.1 ha.2.1 ham]
    refine ⟨hdy.1, ?_⟩
    have := two_pow_pos' (8 * L - a.mask.ones)
    omega

/-- No block contains both a 4-byte address and a 16-byte address outside
the v4-in-v6 range: the normalized lengths cannot both match. -/
theorem contains_lens {n : IPNet} {x y : IP} (hx4 : x.len = 4)
    (hy16 : y.len = 16) (hym : y.val / 2 ^ 32 ≠ 0xffff)
    (h1 : n.contains x = true) (h2 : n.contains y = true) : False := by
  rw [pow32_num] at hym
  cases hnm : networkNumberAndMask n with
  | none =>
    rw [show n.contains x = false from by simp [IPNet.contains, hnm]] at h1
    exact absurd h1 (by simp)
  | some p =>
    obtain ⟨nn, m⟩ := p
    simp only [IPNet.contains, hnm] at h1 h2
    have hx1 : x.to4 = some x := by
      simp [IP.to4, hx4]
    have hy1 : y.to4 = none := by
      simp [IP.to4, hy16, hym]
    rw [hx1] at h1
    rw [hy1] at h2
    simp only [Bool.and_eq_true, beq_iff_eq] at h1 h2
    have e1 := h1.1
    have e2 := h2.1
    rw [hx4] at e1
    rw [hy16] at e2
    omega

/-- C2: the spec (scenario 6 and the pruning rule) requires that a
reservation equal to the root itself prunes the entire tree, yielding
NoAvailableBlock; the code only prunes children, so on
root = 10.0.0.0/16, used = [10.0.0.0/16], desired = /24 it returns
10.0.0.0/24 instead of an error. -/
theorem c2_root_pruning_bug :
    FindAvailableCIDR ⟨⟨4, 167772160⟩, ⟨16, 32⟩⟩ ⟨24, 32⟩
        [⟨⟨4, 167772160⟩, ⟨16, 32⟩⟩] =
      .ok ⟨⟨4, 167772160⟩, ⟨24, 32⟩⟩ := by
  rfl

/-- C3: if some used block is not contained in the root, FindAvailableCIDR
returns the InvalidInputRanges error and no block, for every desired mask,
before the degenerate-size checks. -/
theorem c3_containment_precondition (rootCidr : IPNet) (desiredMask : Mask)
    (usedCidrs : List IPNet)
    (h : ∃ u ∈ usedCidrs, ContainsCidr rootCidr u = false) :
    ∃ e, FindAvailableCIDR rootCidr desiredMask usedCidrs = .error (.invalidRanges e) ∧
      (FindError.invalidRanges e).kind = ErrorKind.invalidInputRanges := by
  cases hv : VerifyNoOverlap usedCidrs rootCidr with
  | some e =>
    refine ⟨e, ?_, rfl⟩
    rw [FindAvailableCIDR, hv]
  | none =>
    exfalso
    obtain ⟨u, hu, hcu⟩ := h
    obtain ⟨n, hn⟩ := List.mem_iff_get.mp hu
    have := verify_none_contains hv n.1 n.2
    rw [hn] at this
    rw [this] at hcu
    exact absurd hcu (by simp)

/-- C3 witness. -/
theorem c3_containment_precondition_witness :
    ∃ e, FindAvailableCIDR ⟨⟨4, 167772160⟩, ⟨16, 32⟩⟩ ⟨16, 32⟩
        [⟨⟨4, 167837696⟩, ⟨24, 32⟩⟩] = .error (.invalidRanges e) ∧
      (FindError.invalidRanges e).kind = ErrorKind.invalidInputRanges :=
  c3_containment_precondition ⟨⟨4, 167772160⟩, ⟨16, 32⟩⟩ ⟨16, 32⟩
    [⟨⟨4, 167837696⟩, ⟨24, 32⟩⟩] ⟨⟨⟨4, 167837696⟩, ⟨24, 32⟩⟩, by decide, by rfl⟩

/-- C4 counterexample: with MasksEqual(root.Mask, desiredMask) and a
non-empty used list whose block lies outside root, the result is the
InvalidInputRanges error, not the NoAvailableBlock error the claim
demands. -/
theorem c4_counterexample :
    FindAvailableCIDR ⟨⟨4, 167772160⟩, ⟨16, 32⟩⟩ ⟨16, 32⟩
        [⟨⟨4, 167837696⟩, ⟨24, 32⟩⟩] =
      .error (.invalidRanges (.doesNotContain ⟨⟨4, 167772160⟩, ⟨16, 32⟩⟩
        ⟨⟨4, 167837696⟩, ⟨24, 32⟩⟩)) ∧
    (FindError.invalidRanges (.doesNotContain ⟨⟨4, 167772160⟩, ⟨16, 32⟩⟩
        ⟨⟨4, 167837696⟩, ⟨24, 32⟩⟩)).kind ≠ ErrorKind.noAvailableBlock ∧
    EqualMask (⟨⟨4, 167772160⟩, ⟨16, 32⟩⟩ : IPNet).mask ⟨16, 32⟩ = true := by
  refine ⟨rfl, ?_, rfl⟩
  intro hc
  simp [FindError.kind] at hc

/-- C4 (amended): when MasksEqual(root.Mask, desiredMask), an empty used
list yields the root itself; a non-empty used list that passes the
overlap and containment validation yields the NoAvailableBlock error
(a list failing validation yields InvalidInputRanges instead). -/
theorem c4_whole_root (rootCidr : IPNet) (desiredMask : Mask) (usedCidrs : List IPNet)
    (he : EqualMask rootCidr.mask desiredMask = true) :
    (usedCidrs = [] → FindAvailableCIDR rootCidr desiredMask usedCidrs = .ok rootCidr) ∧
    (VerifyNoOverlap usedCidrs rootCidr = none → usedCidrs ≠ [] →
      FindAvailableCIDR rootCidr desiredMask usedCidrs = .error .unableToFind ∧
      FindError.unableToFind.kind = ErrorKind.noAvailableBlock) := by
  constructor
  · intro h
    subst h
    have hv : VerifyNoOverlap [] rootCidr = none := rfl
    rw [FindAvailableCIDR, hv]
    simp [he]
  · intro hv hne
    rw [FindAvailableCIDR, hv]
    have hlen : ¬ (usedCidrs.length = 0) := by
      intro hc
      exact hne (List.length_eq_zero.mp hc)
    refine ⟨?_, rfl⟩
    simp [he, hlen]

/-- C4 witness. -/
theorem c4_whole_root_witness :
    EqualMask (⟨⟨4, 167772160⟩, ⟨16, 32⟩⟩ : IPNet).mask ⟨16, 32⟩ = true ∧
    ((([⟨⟨4, 167772416⟩, ⟨24, 32⟩⟩] : List IPNet) = [] →
        FindAvailableCIDR ⟨⟨4, 167772160⟩, ⟨16, 32⟩⟩ ⟨16, 32⟩
          [⟨⟨4, 167772416⟩, ⟨24, 32⟩⟩] = .ok ⟨⟨4, 167772160⟩, ⟨16, 32⟩⟩) ∧
      (VerifyNoOverlap [⟨⟨4, 167772416⟩, ⟨24, 32⟩⟩] ⟨⟨4, 167772160⟩, ⟨16, 32⟩⟩ = none →
        ([⟨⟨4, 167772416⟩, ⟨24, 32⟩⟩] : List IPNet) ≠ [] →
        FindAvailableCIDR ⟨⟨4, 167772160⟩, ⟨16, 32⟩⟩ ⟨16, 32⟩
            [⟨⟨4, 167772416⟩, ⟨24, 32⟩⟩] = .error .unableToFind ∧
          FindError.unableToFind.kind = ErrorKind.noAvailableBlock)) :=
  ⟨rfl, c4_whole_root ⟨⟨4, 167772160⟩, ⟨16, 32⟩⟩ ⟨16, 32⟩
    [⟨⟨4, 167772416⟩, ⟨24, 32⟩⟩] rfl⟩

/-- C5 counterexample: with IsSmallerMask(root.Mask, desiredMask) but a
used list that fails validation, the result is the InvalidInputRanges
error, not the NoAvailableBlock error the claim demands for all used. -/
theorem c5_counterexample :
    SmallerMask (⟨⟨4, 167772160⟩, ⟨16, 32⟩⟩ : IPNet).mask ⟨15, 32⟩ = true ∧
    FindAvailableCIDR ⟨⟨4, 167772160⟩, ⟨16, 32⟩⟩ ⟨15, 32⟩
        [⟨⟨4, 167837696⟩, ⟨24, 32⟩⟩] =
      .error (.invalidRanges (.doesNotContain ⟨⟨4, 167772160⟩, ⟨16, 32⟩⟩
        ⟨⟨4, 167837696⟩, ⟨24, 32⟩⟩)) ∧
    (FindError.invalidRanges (.doesNotContain ⟨⟨4, 167772160⟩, ⟨16, 32⟩⟩
        ⟨⟨4, 167837696⟩, ⟨24, 32⟩⟩)).kind ≠ ErrorKind.noAvailableBlock := by
  refine ⟨rfl, rfl, ?_⟩
  intro hc
  simp [FindError.kind] at hc

/-- C5 (amended): when IsSmallerMask(root.Mask, desiredMask) and the used
list passes validation, FindAvailableCIDR returns the NoAvailableBlock
error (the oversized-request message), regardless of the rest of used. -/
theorem c5_oversized (rootCidr : IPNet) (desiredMask : Mask) (usedCidrs : List IPNet)
    (hs : SmallerMask rootCidr.mask desiredMask = true)
    (hv : VerifyNoOverlap usedCidrs rootCidr = none) :
    FindAvailableCIDR rootCidr desiredMask usedCidrs = .error .desiredMaskTooLarge ∧
      FindError.desiredMaskTooLarge.kind = ErrorKind.noAvailableBlock := by
  have hso := smallerMask_iff.mp hs
  have he : EqualMask rootCidr.mask desiredMask = false := by
    cases hx : EqualMask rootCidr.mask desiredMask
    · rfl
    · obtain ⟨h1, h2⟩ := equalMask_iff.mp hx
      omega
  rw [FindAvailableCIDR, hv]
  refine ⟨?_, rfl⟩
  simp [he, hs]

/-- C5 witness. -/
theorem c5_oversized_witness :
    SmallerMask (⟨⟨4, 167772160⟩, ⟨16, 32⟩⟩ : IPNet).mask ⟨15, 32⟩ = true ∧
    (FindAvailableCIDR ⟨⟨4, 167772160⟩, ⟨16, 32⟩⟩ ⟨15, 32⟩ [] =
        .error .desiredMaskTooLarge ∧
      FindError.desiredMaskTooLarge.kind = ErrorKind.noAvailableBlock) :=
  ⟨rfl, c5_oversized ⟨⟨4, 167772160⟩, ⟨16, 32⟩⟩ ⟨15, 32⟩ [] rfl rfl⟩

/-- C9: under a consistent width, a reachable desired prefix below the
root prefix makes the MaskExhausted condition unreachable — the search
returns without a split error, the recursion depth is bounded by
desired ones minus root ones (the same result is computed with exactly
that much fuel), and FindAvailableCIDR never reports a split error. -/
theorem c9_mask_exhausted_unreachable (rootCidr : IPNet) (desiredMask : Mask)
    (usedCidrs : List IPNet)
    (hdb : desiredMask.ones ≤ desiredMask.bits)
    (hbits : rootCidr.mask.bits = desiredMask.bits)
    (hlt : rootCidr.mask.ones < desiredMask.ones) :
    (∃ r, evaluateChildren rootCidr desiredMask usedCidrs = .ok r) ∧
    evaluateChildren rootCidr desiredMask usedCidrs =
      evalAux (desiredMask.ones - rootCidr.mask.ones) rootCidr desiredMask usedCidrs ∧
    ∀ e, FindAvailableCIDR rootCidr desiredMask usedCidrs ≠ .error (.splitError e) := by
  obtain ⟨r, hr⟩ := eval_no_error hdb (desiredMask.ones - rootCidr.mask.ones)
    rootCidr rfl hbits hlt
  refine ⟨⟨r, hr⟩, eval_depth_bound hdb hbits hlt, ?_⟩
  intro e hcontra
  cases hv : VerifyNoOverlap usedCidrs rootCidr with
  | some e2 =>
    rw [FindAvailableCIDR, hv] at hcontra
    simp at hcontra
  | none =>
    rw [FindAvailableCIDR, hv] at hcontra
    have he : EqualMask rootCidr.mask desiredMask = false := by
      cases hx : EqualMask rootCidr.mask desiredMask
      · rfl
      · obtain ⟨h1, h2⟩ := equalMask_iff.mp hx
        omega
    have hs : SmallerMask rootCidr.mask desiredMask = false := by
      cases hx : SmallerMask rootCidr.mask desiredMask
      · rfl
      · have := smallerMask_iff.mp hx
        omega
    rw [he, hs] at hcontra
    simp only [Bool.false_eq_true, if_false] at hcontra
    rw [hr] at hcontra
    cases r with
    | none => simp at hcontra
    | some b => simp at hcontra

/-- C9 witness. -/
theorem c9_mask_exhausted_unreachable_witness :
    ((24 : ℕ) ≤ 32 ∧ (32 : ℕ) = 32 ∧ (16 : ℕ) < 24) ∧
    ((∃ r, evaluateChildren ⟨⟨4, 167772160⟩, ⟨16, 32⟩⟩ ⟨24, 32⟩ [] = .ok r) ∧
      evaluateChildren ⟨⟨4, 167772160⟩, ⟨16, 32⟩⟩ ⟨24, 32⟩ [] =
        evalAux (24 - 16) ⟨⟨4, 167772160⟩, ⟨16, 32⟩⟩ ⟨24, 32⟩ [] ∧
      ∀ e, FindAvailableCIDR ⟨⟨4, 167772160⟩, ⟨16, 32⟩⟩ ⟨24, 32⟩ [] ≠
        .error (.splitError e)) :=
  ⟨⟨by decide, rfl, by decide⟩,
    c9_mask_exhausted_unreachable ⟨⟨4, 167772160⟩, ⟨16, 32⟩⟩ ⟨24, 32⟩ []
      (by decide) rfl (by decide)⟩

/-- C7: for a consistently declared aligned block, splitting below the
maximum prefix length succeeds and yields the two half blocks — the left
child keeps the base address (0 at the new bit), the right child sets the
new bit; their ranges are consecutive (left ends one before right starts)
and together reconstitute the range of the parent exactly.  At the
maximum prefix length, splitting fails with the MaskExhausted condition
(the insufficient-address-space error of Subnet). -/
theorem c7_split (b : IPNet)
    (hb : b.mask.bits = 8 * b.ip.len)
    (hv : b.ip.val < 2 ^ b.mask.bits)
    (ho : b.mask.ones ≤ b.mask.bits)
    (hal : 2 ^ (b.mask.bits - b.mask.ones) ∣ b.ip.val) :
    (b.mask.ones < b.mask.bits →
      ChildCidrs b = .ok
        (⟨b.ip, ⟨b.mask.ones + 1, b.mask.bits⟩⟩,
         ⟨⟨b.ip.len, b.ip.val + 2 ^ (b.mask.bits - (b.mask.ones + 1))⟩,
          ⟨b.mask.ones + 1, b.mask.bits⟩⟩) ∧
      AddressRange ⟨b.ip, ⟨b.mask.ones + 1, b.mask.bits⟩⟩ =
        (b.ip, ⟨b.ip.len, b.ip.val + (2 ^ (b.mask.bits - (b.mask.ones + 1)) - 1)⟩) ∧
      AddressRange ⟨⟨b.ip.len, b.ip.val + 2 ^ (b.mask.bits - (b.mask.ones + 1))⟩,
          ⟨b.mask.ones + 1, b.mask.bits⟩⟩ =
        (⟨b.ip.len, b.ip.val + 2 ^ (b.mask.bits - (b.mask.ones + 1))⟩,
         ⟨b.ip.len, b.ip.val + (2 ^ (b.mask.bits - b.mask.ones) - 1)⟩) ∧
      AddressRange b =
        (b.ip, ⟨b.ip.len, b.ip.val + (2 ^ (b.mask.bits - b.mask.ones) - 1)⟩)) ∧
    (b.mask.ones = b.mask.bits → ChildCidrs b = .error .insufficientAddressSpace) := by
  constructor
  · intro hlt
    have hok := childCidrs_ok hlt
    rw [child2_valW hb hal hlt] at hok
    have hpow : 2 ^ (b.mask.bits - (b.mask.ones + 1)) +
        2 ^ (b.mask.bits - (b.mask.ones + 1)) = 2 ^ (b.mask.bits - b.mask.ones) := by
      have h32 : b.mask.bits - b.mask.ones = (b.mask.bits - (b.mask.ones + 1)) + 1 := by
        omega
      rw [h32, pow_succ]
      ring
    refine ⟨hok, ?_, ?_, ?_⟩
    · have hb1 : (⟨b.ip, ⟨b.mask.ones + 1, b.mask.bits⟩⟩ : IPNet).mask.bits =
          8 * (⟨b.ip, ⟨b.mask.ones + 1, b.mask.bits⟩⟩ : IPNet).ip.len := hb
      have ho1 : (⟨b.ip, ⟨b.mask.ones + 1, b.mask.bits⟩⟩ : IPNet).mask.ones ≤
          (⟨b.ip, ⟨b.mask.ones + 1, b.mask.bits⟩⟩ : IPNet).mask.bits := by
        show b.mask.ones + 1 ≤ b.mask.bits
        omega
      have hd1 : 2 ^ ((⟨b.ip, ⟨b.mask.ones + 1, b.mask.bits⟩⟩ : IPNet).mask.bits -
            (⟨b.ip, ⟨b.mask.ones + 1, b.mask.bits⟩⟩ : IPNet).mask.ones) ∣
          (⟨b.ip, ⟨b.mask.ones + 1, b.mask.bits⟩⟩ : IPNet).ip.val := by
        show (2 : ℕ) ^ (b.mask.bits - (b.mask.ones + 1)) ∣ b.ip.val
        exact dvd_trans (pow_dvd_pow 2 (by omega)) hal
      exact addressRange_eqW hb1 ho1 hd1
    · have hb2 : (⟨⟨b.ip.len, b.ip.val + 2 ^ (b.mask.bits - (b.mask.ones + 1))⟩,
          ⟨b.mask.ones + 1, b.mask.bits⟩⟩ : IPNet).mask.bits =
          8 * (⟨⟨b.ip.len, b.ip.val + 2 ^ (b.mask.bits - (b.mask.ones + 1))⟩,
          ⟨b.mask.ones + 1, b.mask.bits⟩⟩ : IPNet).ip.len := hb
      have ho2 : (⟨⟨b.ip.len, b.ip.val + 2 ^ (b.mask.bits - (b.mask.ones + 1))⟩,
          ⟨b.mask.ones + 1, b.mask.bits⟩⟩ : IPNet).mask.ones ≤
          (⟨⟨b.ip.len, b.ip.val + 2 ^ (b.mask.bits - (b.mask.ones + 1))⟩,
          ⟨b.mask.ones + 1, b.mask.bits⟩⟩ : IPNet).mask.bits := by
        show b.mask.ones + 1 ≤ b.mask.bits
        omega
      have hd2 : 2 ^ ((⟨⟨b.ip.len, b.ip.val + 2 ^ (b.mask.bits - (b.mask.ones + 1))⟩,
            ⟨b.mask.ones + 1, b.mask.bits⟩⟩ : IPNet).mask.bits -
            (⟨⟨b.ip.len, b.ip.val + 2 ^ (b.mask.bits - (b.mask.ones + 1))⟩,
            ⟨b.mask.ones + 1, b.mask.bits⟩⟩ : IPNet).mask.ones) ∣
          (⟨⟨b.ip.len, b.ip.val + 2 ^ (b.mask.bits - (b.mask.ones + 1))⟩,
            ⟨b.mask.ones + 1, b.mask.bits⟩⟩ : IPNet).ip.val := by
        show (2 : ℕ) ^ (b.mask.bits - (b.mask.ones + 1)) ∣
          b.ip.val + 2 ^ (b.mask.bits - (b.mask.ones + 1))
        exact dvd_add (dvd_trans (pow_dvd_pow 2 (by omega)) hal) (dvd_refl _)
      have har := addressRange_eqW hb2 ho2 hd2
      have hp1 : (1 : ℕ) ≤ 2 ^ (b.mask.bits - (b.mask.ones + 1)) := two_pow_pos' _
      have hval : b.ip.val + 2 ^ (b.mask.bits - (b.mask.ones + 1)) +
          (2 ^ (b.mask.bits - (b.mask.ones + 1)) - 1) =
          b.ip.val + (2 ^ (b.mask.bits - b.mask.ones) - 1) := by
        omega
      rw [har, hval]
    · exact addressRange_eqW hb ho hal
  · intro heq
    exact childCidrs_err (le_of_eq heq.symm)

/-- C7 witness. -/
theorem c7_split_witness :
    ((⟨⟨4, 167772160⟩, ⟨16, 32⟩⟩ : IPNet).mask.bits =
        8 * (⟨⟨4, 167772160⟩, ⟨16, 32⟩⟩ : IPNet).ip.len ∧
      (167772160 : ℕ) < 2 ^ 32 ∧ (16 : ℕ) ≤ 32 ∧ (2 : ℕ) ^ 16 ∣ 167772160) ∧
    (((⟨⟨4, 167772160⟩, ⟨16, 32⟩⟩ : IPNet).mask.ones <
        (⟨⟨4, 167772160⟩, ⟨16, 32⟩⟩ : IPNet).mask.bits →
      ChildCidrs ⟨⟨4, 167772160⟩, ⟨16, 32⟩⟩ = .ok
        (⟨⟨4, 167772160⟩, ⟨17, 32⟩⟩, ⟨⟨4, 167772160 + 2 ^ 15⟩, ⟨17, 32⟩⟩) ∧
      AddressRange ⟨⟨4, 167772160⟩, ⟨17, 32⟩⟩ =
        (⟨4, 167772160⟩, ⟨4, 167772160 + (2 ^ 15 - 1)⟩) ∧
      AddressRange ⟨⟨4, 167772160 + 2 ^ 15⟩, ⟨17, 32⟩⟩ =
        (⟨4, 167772160 + 2 ^ 15⟩, ⟨4, 167772160 + (2 ^ 16 - 1)⟩) ∧
      AddressRange ⟨⟨4, 167772160⟩, ⟨16, 32⟩⟩ =
        (⟨4, 167772160⟩, ⟨4, 167772160 + (2 ^ 16 - 1)⟩)) ∧
    ((⟨⟨4, 167772160⟩, ⟨16, 32⟩⟩ : IPNet).mask.ones =
        (⟨⟨4, 167772160⟩, ⟨16, 32⟩⟩ : IPNet).mask.bits →
      ChildCidrs ⟨⟨4, 167772160⟩, ⟨16, 32⟩⟩ = .error .insufficientAddressSpace)) :=
  ⟨⟨rfl, by decide, by decide, by decide⟩,
    c7_split ⟨⟨4, 167772160⟩, ⟨16, 32⟩⟩ rfl (by decide) (by decide) (by decide)⟩

/-- C8: block equality normalizes address width — for addresses stored at
the two family widths, EqualCIDRs holds exactly when the canonical-width
numeric values agree and both mask components agree literally; in
particular a 32-bit address and its widened v4-in-v6 form compare
equal. -/
theorem c8_cross_width_equality (x y : IPNet)
    (hx : x.ip.len = 4 ∨ x.ip.len = 16) (hy : y.ip.len = 4 ∨ y.ip.len = 16)
    (hxv : x.ip.val < 2 ^ (8 * x.ip.len)) (hyv : y.ip.val < 2 ^ (8 * y.ip.len)) :
    EqualCIDRs x y = true ↔
      (canonVal x.ip = canonVal y.ip ∧ x.mask.ones = y.mask.ones ∧
        x.mask.bits = y.mask.bits) := by
  rcases hx with h4 | h16 <;> rcases hy with g4 | g16
  · simp [EqualCIDRs, IP.Equal, EqualMask, Mask.size, canonVal, h4, g4, and_assoc]
  · have hxv32 : x.ip.val < 2 ^ 32 := by
      rw [h4] at hxv
      simpa using hxv
    have hiff := @v4inv6_iff x.ip.val y.ip.val hxv32
    simp only [EqualCIDRs, IP.Equal, EqualMask, Mask.size, canonVal, h4, g16]
    norm_num
    intro h1 h2
    norm_num at hiff
    exact hiff
  · have hyv32 : y.ip.val < 2 ^ 32 := by
      rw [g4] at hyv
      simpa using hyv
    have hiff := @v4inv6_iff y.ip.val x.ip.val hyv32
    simp only [EqualCIDRs, IP.Equal, EqualMask, Mask.size, canonVal, h16, g4]
    norm_num
    intro h1 h2
    norm_num at hiff
    exact hiff.trans eq_comm
  · simp [EqualCIDRs, IP.Equal, EqualMask, Mask.size, canonVal, h16, g16, and_assoc]

/-- C8 witness: 1.2.3.4 stored in 4 bytes equals its 16-byte widened
form. -/
theorem c8_cross_width_equality_witness :
    ((⟨⟨4, 16909060⟩, ⟨16, 32⟩⟩ : IPNet).ip.len = 4 ∨
      (⟨⟨4, 16909060⟩, ⟨16, 32⟩⟩ : IPNet).ip.len = 16) ∧
    ((⟨⟨16, 0xffff * 2 ^ 32 + 16909060⟩, ⟨16, 32⟩⟩ : IPNet).ip.len = 4 ∨
      (⟨⟨16, 0xffff * 2 ^ 32 + 16909060⟩, ⟨16, 32⟩⟩ : IPNet).ip.len = 16) ∧
    (EqualCIDRs ⟨⟨4, 16909060⟩, ⟨16, 32⟩⟩
        ⟨⟨16, 0xffff * 2 ^ 32 + 16909060⟩, ⟨16, 32⟩⟩ = true ↔
      (canonVal (⟨4, 16909060⟩ : IP) =
          canonVal (⟨16, 0xffff * 2 ^ 32 + 16909060⟩ : IP) ∧
        (16 : ℕ) = 16 ∧ (32 : ℕ) = 32)) ∧
    EqualCIDRs ⟨⟨4, 16909060⟩, ⟨16, 32⟩⟩
      ⟨⟨16, 0xffff * 2 ^ 32 + 16909060⟩, ⟨16, 32⟩⟩ = true :=
  ⟨Or.inl rfl, Or.inr rfl,
    c8_cross_width_equality ⟨⟨4, 16909060⟩, ⟨16, 32⟩⟩
      ⟨⟨16, 0xffff * 2 ^ 32 + 16909060⟩, ⟨16, 32⟩⟩ (Or.inl rfl) (Or.inr rfl)
      (by decide) (by decide), by decide⟩


/-- C1 counterexample: two failures of the claim as stated.  (a) On
root = 10.0.0.0/16, used = [10.0.0.0/16], desired = /24, the call
succeeds with B = 10.0.0.0/24 although the used block contains B.
(b) On the 16-byte root ::/0 with desired prefix 80 and no reservations,
the call succeeds with B = ::/80, yet Contains(root, B) is false: B's
last address lies in the v4-in-v6 mapped range, so the containment check
normalizes it to 4 bytes and fails the length comparison. -/
theorem c1_counterexample :
    (FindAvailableCIDR ⟨⟨4, 167772160⟩, ⟨16, 32⟩⟩ ⟨24, 32⟩
        [⟨⟨4, 167772160⟩, ⟨16, 32⟩⟩] = .ok ⟨⟨4, 167772160⟩, ⟨24, 32⟩⟩ ∧
      ContainsCidr ⟨⟨4, 167772160⟩, ⟨16, 32⟩⟩ ⟨⟨4, 167772160⟩, ⟨24, 32⟩⟩ = true) ∧
    (FindAvailableCIDR ⟨⟨16, 0⟩, ⟨0, 128⟩⟩ ⟨80, 128⟩ [] = .ok ⟨⟨16, 0⟩, ⟨80, 128⟩⟩ ∧
      ContainsCidr ⟨⟨16, 0⟩, ⟨0, 128⟩⟩ ⟨⟨16, 0⟩, ⟨80, 128⟩⟩ = false) := by
  refine ⟨⟨rfl, rfl⟩, ⟨?_, rfl⟩⟩
  set_option maxRecDepth 4000 in rfl

/-- C1 (amended): for well-formed inputs of either address family, a
successful result B has the desired mask and neither equals nor contains
any used block.  B is contained in the root except when the root is
16-byte and B's first or last address falls in the v4-in-v6 mapped
range, where the containment predicate normalizes across families and
fails; and no used block contains B provided no used block contains the
root block itself. -/
theorem c1_validity (rootCidr : IPNet) (desiredMask : Mask) (usedCidrs : List IPNet)
    (B : IPNet)
    (hroot : WFCidr rootCidr) (hused : ∀ u ∈ usedCidrs, WFCidr u)
    (h : FindAvailableCIDR rootCidr desiredMask usedCidrs = .ok B) :
    EqualMask B.mask desiredMask = true ∧
    (∀ u ∈ usedCidrs, EqualCIDRs B u = false ∧ ContainsCidr B u = false) ∧
    ((rootCidr.ip.len = 16 → B.ip.val / 2 ^ 32 ≠ 0xffff ∧
        (B.ip.val + (2 ^ (B.mask.bits - B.mask.ones) - 1)) / 2 ^ 32 ≠ 0xffff) →
      ContainsCidr rootCidr B = true) ∧
    ((∀ u ∈ usedCidrs, ContainsCidr u rootCidr = false) →
      ∀ u ∈ usedCidrs, ContainsCidr u B = false) := by
  obtain ⟨hv, hcases⟩ := find_ok_cases h
  have hL : rootCidr.ip.len = 4 ∨ rootCidr.ip.len = 16 := by
    rcases hroot.1 with h' | h'
    · exact Or.inl h'
    · exact Or.inr h'.1
  have hwvroot : WFV rootCidr.ip.len rootCidr := wfcidr_wfv hroot
  have hrnm : rootCidr.ip.len = 16 → rootCidr.ip.val / 2 ^ 32 ≠ 0xffff := by
    intro h16
    rcases hroot.1 with h' | h'
    · omega
    · exact h'.2
  have hexpR : rootCidr.mask.bits - rootCidr.mask.ones =
      8 * rootCidr.ip.len - rootCidr.mask.ones := by
    have h2 := hroot.2.2.1
    omega
  have hendR := range_end_leW hwvroot
  have hposR : (1 : ℕ) ≤ 2 ^ (8 * rootCidr.ip.len - rootCidr.mask.ones) := two_pow_pos' _
  rcases hcases with ⟨he, hnil, hBr⟩ | ⟨he, hs, hev⟩
  · rw [hBr]
    subst hnil
    refine ⟨he, ?_, ?_, ?_⟩
    · intro u hu
      simp at hu
    · intro hguard
      rw [ContainsCidr]
      have har := addressRange_eqW hroot.2.2.1 hroot.2.2.2.1 hroot.2.2.2.2
      rw [har]
      simp only [Bool.and_eq_true]
      constructor
      · rw [contains_mem hL hwvroot hrnm rfl hwvroot.2.1 hrnm]
        omega
      · rw [contains_mem hL hwvroot hrnm
          (show (⟨rootCidr.ip.len, rootCidr.ip.val +
              (2 ^ (rootCidr.mask.bits - rootCidr.mask.ones) - 1)⟩ : IP).len
            = rootCidr.ip.len from rfl)
          (show (⟨rootCidr.ip.len, rootCidr.ip.val +
              (2 ^ (rootCidr.mask.bits - rootCidr.mask.ones) - 1)⟩ : IP).val
            < 2 ^ (8 * rootCidr.ip.len) from by
              show rootCidr.ip.val + (2 ^ (rootCidr.mask.bits - rootCidr.mask.ones) - 1)
                < 2 ^ (8 * rootCidr.ip.len)
              rw [hexpR]
              omega)
          (fun h16 => (hguard h16).2)]
        show rootCidr.ip.val ≤
            rootCidr.ip.val + (2 ^ (rootCidr.mask.bits - rootCidr.mask.ones) - 1) ∧
          rootCidr.ip.val + (2 ^ (rootCidr.mask.bits - rootCidr.mask.ones) - 1) <
            rootCidr.ip.val + 2 ^ (8 * rootCidr.ip.len - rootCidr.mask.ones)
        rw [hexpR]
        omega
    · intro hnr u hu
      simp at hu
  · have hev2 : evalAux (rootCidr.mask.bits - rootCidr.mask.ones) rootCidr desiredMask
        usedCidrs = .ok (some B) := hev
    obtain ⟨hBo, hBb, hdbits, hro, hdle⟩ := evalAux_some_mask _ _ _ _ _ hev2
    have hdb : desiredMask.bits = 8 * rootCidr.ip.len := by
      have h2 := hroot.2.2.1
      omega
    have hdo : desiredMask.ones ≤ 8 * rootCidr.ip.len := by omega
    have hbasic := eval_basicW hdb hdo (desiredMask.ones - rootCidr.mask.ones) rootCidr
      rfl hwvroot hro B hev
    obtain ⟨e1, e2, e3, e4, e5, e6⟩ := hbasic
    have hposd : (1 : ℕ) ≤ 2 ^ (8 * rootCidr.ip.len - desiredMask.ones) := two_pow_pos' _
    have hexpB : B.mask.bits - B.mask.ones = 8 * rootCidr.ip.len - desiredMask.ones := by
      have h2 := e3.2.2.1
      omega
    have harB : AddressRange B =
        (B.ip, ⟨B.ip.len, B.ip.val + (2 ^ (B.mask.bits - B.mask.ones) - 1)⟩) :=
      addressRange_eqW (by rw [e3.2.2.1, e3.1])
        (by
          have h2 := e3.2.2.2.1
          have h3 := e3.2.2.1
          omega)
        (by
          rw [e3.2.2.1]
          exact e3.2.2.2.2)
    refine ⟨equalMask_iff.mpr ⟨e1, hBb⟩, ?_, ?_, ?_⟩
    · intro u hu
      exact ⟨(e6 u hu).1, (e6 u hu).2⟩
    · intro hguard
      rw [ContainsCidr, harB]
      simp only [Bool.and_eq_true]
      constructor
      · rw [contains_mem hL hwvroot hrnm e3.1 e3.2.1 (fun h16 => (hguard h16).1)]
        exact ⟨e4, by omega⟩
      · rw [contains_mem hL hwvroot hrnm
          (show (⟨B.ip.len, B.ip.val + (2 ^ (B.mask.bits - B.mask.ones) - 1)⟩ : IP).len
            = rootCidr.ip.len from e3.1)
          (show (⟨B.ip.len, B.ip.val + (2 ^ (B.mask.bits - B.mask.ones) - 1)⟩ : IP).val
            < 2 ^ (8 * rootCidr.ip.len) from by
              show B.ip.val + (2 ^ (B.mask.bits - B.mask.ones) - 1)
                < 2 ^ (8 * rootCidr.ip.len)
              rw [hexpB]
              omega)
          (fun h16 => (hguard h16).2)]
        show rootCidr.ip.val ≤ B.ip.val + (2 ^ (B.mask.bits - B.mask.ones) - 1) ∧
          B.ip.val + (2 ^ (B.mask.bits - B.mask.ones) - 1) <
            rootCidr.ip.val + 2 ^ (8 * rootCidr.ip.len - rootCidr.mask.ones)
        rw [hexpB]
        omega
    · intro hnr u hu
      have hfacts := verify_none_facts hroot hused hv
      have husedWFV : ∀ u' ∈ usedCidrs, WFV rootCidr.ip.len u' := by
        intro u' hu'
        have hlen := (hfacts u' hu').1
        have := wfcidr_wfv (hused u' hu')
        rw [hlen] at this
        exact this
      have hinv0 : ∀ u' ∈ usedCidrs, ¬(u'.ip.val ≤ rootCidr.ip.val ∧
          rootCidr.ip.val + 2 ^ (8 * rootCidr.ip.len - rootCidr.mask.ones) ≤
            u'.ip.val + 2 ^ (8 * rootCidr.ip.len - u'.mask.ones)) := by
        intro u' hu' hss
        obtain ⟨hs1, hs2⟩ := hss
        obtain ⟨hlen', hlast', hsem1', hsem2'⟩ := hfacts u' hu'
        have hpu' : (1 : ℕ) ≤ 2 ^ (8 * rootCidr.ip.len - u'.mask.ones) := two_pow_pos' _
        have hszq : rootCidr.ip.val + (2 ^ (8 * rootCidr.ip.len - rootCidr.mask.ones) - 1) =
            u'.ip.val + (2 ^ (8 * rootCidr.ip.len - u'.mask.ones) - 1) := by
          omega
        have hwvu' := husedWFV u' hu'
        have hu'nm : rootCidr.ip.len = 16 → u'.ip.val / 2 ^ 32 ≠ 0xffff := by
          intro h16
          rcases (hused u' hu').1 with h' | h'
          · omega
          · exact h'.2
        have har := addressRange_eqW hroot.2.2.1 hroot.2.2.2.1 hroot.2.2.2.2
        have hctrue : ContainsCidr u' rootCidr = true := by
          rw [ContainsCidr, har]
          simp only [Bool.and_eq_true]
          constructor
          · rw [contains_mem hL hwvu' hu'nm rfl hwvroot.2.1 hrnm]
            omega
          · rw [contains_mem hL hwvu' hu'nm
              (show (⟨rootCidr.ip.len, rootCidr.ip.val +
                  (2 ^ (rootCidr.mask.bits - rootCidr.mask.ones) - 1)⟩ : IP).len
                = rootCidr.ip.len from rfl)
              (show (⟨rootCidr.ip.len, rootCidr.ip.val +
                  (2 ^ (rootCidr.mask.bits - rootCidr.mask.ones) - 1)⟩ : IP).val
                < 2 ^ (8 * rootCidr.ip.len) from by
                  show rootCidr.ip.val + (2 ^ (rootCidr.mask.bits - rootCidr.mask.ones) - 1)
                    < 2 ^ (8 * rootCidr.ip.len)
                  rw [hexpR]
                  omega)
              (by
                intro h16
                show (rootCidr.ip.val +
                    (2 ^ (rootCidr.mask.bits - rootCidr.mask.ones) - 1)) / 2 ^ 32 ≠ 0xffff
                rw [hexpR, hszq]
                exact hlast' h16)]
            show u'.ip.val ≤
                rootCidr.ip.val + (2 ^ (rootCidr.mask.bits - rootCidr.mask.ones) - 1) ∧
              rootCidr.ip.val + (2 ^ (rootCidr.mask.bits - rootCidr.mask.ones) - 1) <
                u'.ip.val + 2 ^ (8 * rootCidr.ip.len - u'.mask.ones)
            rw [hexpR]
            omega
        rw [hnr u' hu'] at hctrue
        exact absurd hctrue (by simp)
      have hsem := eval_contained_sem hdb hdo husedWFV
        (desiredMask.ones - rootCidr.mask.ones) rootCidr rfl hwvroot hro hinv0 B hev u hu
      by_contra hcb
      have hcb' : ContainsCidr u B = true := by
        cases hx : ContainsCidr u B
        · exact absurd hx hcb
        · rfl
      have hwvu := husedWFV u hu
      rw [ContainsCidr, harB] at hcb'
      simp only [Bool.and_eq_true] at hcb'
      obtain ⟨hcb1, hcb2⟩ := hcb'
      have hunm : rootCidr.ip.len = 16 → u.ip.val / 2 ^ 32 ≠ 0xffff := by
        intro h16
        rcases (hused u hu).1 with h' | h'
        · have := (hfacts u hu).1
          omega
        · exact h'.2
      have hB1nm : rootCidr.ip.len = 16 → B.ip.val / 2 ^ 32 ≠ 0xffff := by
        intro h16
        refine contains_true_unmapped ?_ ?_ (hunm h16) ?_ hcb1
        · have := (hfacts u hu).1
          omega
        · have h2 := hwvu.2.2.1
          omega
        · have h2 := e3.1
          omega
      have hB2nm : rootCidr.ip.len = 16 →
          (B.ip.val + (2 ^ (B.mask.bits - B.mask.ones) - 1)) / 2 ^ 32 ≠ 0xffff := by
        intro h16
        have hres := contains_true_unmapped
          (by
            have := (hfacts u hu).1
            omega)
          (by
            have h2 := hwvu.2.2.1
            omega)
          (hunm h16)
          (show (⟨B.ip.len, B.ip.val + (2 ^ (B.mask.bits - B.mask.ones) - 1)⟩ : IP).len
            = 16 from by
              show B.ip.len = 16
              have h2 := e3.1
              omega) hcb2
        exact hres
      have hm1 := (contains_mem hL hwvu hunm e3.1 e3.2.1 hB1nm).mp hcb1
      have hendB := range_end_leW e3
      have hposB : (1 : ℕ) ≤ 2 ^ (8 * rootCidr.ip.len - B.mask.ones) := two_pow_pos' _
      have hexpB2 : B.mask.bits - B.mask.ones = 8 * rootCidr.ip.len - B.mask.ones := by
        have h2 := e3.2.2.1
        omega
      have hm2 := (contains_mem hL hwvu hunm
        (show (⟨B.ip.len, B.ip.val + (2 ^ (B.mask.bits - B.mask.ones) - 1)⟩ : IP).len
          = rootCidr.ip.len from e3.1)
        (show (⟨B.ip.len, B.ip.val + (2 ^ (B.mask.bits - B.mask.ones) - 1)⟩ : IP).val
          < 2 ^ (8 * rootCidr.ip.len) from by
            show B.ip.val + (2 ^ (B.mask.bits - B.mask.ones) - 1) < 2 ^ (8 * rootCidr.ip.len)
            rw [hexpB2]
            omega)
        hB2nm).mp hcb2
      have hm2' : B.ip.val + (2 ^ (B.mask.bits - B.mask.ones) - 1) <
          u.ip.val + 2 ^ (8 * rootCidr.ip.len - u.mask.ones) := hm2.2
      rw [hexpB2] at hm2'
      exact hsem ⟨hm1.1, by omega⟩

/-- C1 witness. -/
theorem c1_validity_witness :
    WFCidr ⟨⟨4, 167772160⟩, ⟨16, 32⟩⟩ ∧
    (∀ u ∈ ([⟨⟨4, 167772416⟩, ⟨24, 32⟩⟩] : List IPNet), WFCidr u) ∧
    FindAvailableCIDR ⟨⟨4, 167772160⟩, ⟨16, 32⟩⟩ ⟨24, 32⟩
        [⟨⟨4, 167772416⟩, ⟨24, 32⟩⟩] = .ok ⟨⟨4, 167772160⟩, ⟨24, 32⟩⟩ ∧
    (EqualMask (⟨⟨4, 167772160⟩, ⟨24, 32⟩⟩ : IPNet).mask ⟨24, 32⟩ = true ∧
      (∀ u ∈ ([⟨⟨4, 167772416⟩, ⟨24, 32⟩⟩] : List IPNet),
        EqualCIDRs ⟨⟨4, 167772160⟩, ⟨24, 32⟩⟩ u = false ∧
        ContainsCidr ⟨⟨4, 167772160⟩, ⟨24, 32⟩⟩ u = false) ∧
      (((⟨⟨4, 167772160⟩, ⟨16, 32⟩⟩ : IPNet).ip.len = 16 →
          (⟨⟨4, 167772160⟩, ⟨24, 32⟩⟩ : IPNet).ip.val / 2 ^ 32 ≠ 0xffff ∧
          ((⟨⟨4, 167772160⟩, ⟨24, 32⟩⟩ : IPNet).ip.val +
            (2 ^ ((⟨⟨4, 167772160⟩, ⟨24, 32⟩⟩ : IPNet).mask.bits -
              (⟨⟨4, 167772160⟩, ⟨24, 32⟩⟩ : IPNet).mask.ones) - 1)) / 2 ^ 32 ≠ 0xffff) →
        ContainsCidr ⟨⟨4, 167772160⟩, ⟨16, 32⟩⟩ ⟨⟨4, 167772160⟩, ⟨24, 32⟩⟩ = true) ∧
      ((∀ u ∈ ([⟨⟨4, 167772416⟩, ⟨24, 32⟩⟩] : List IPNet),
          ContainsCidr u ⟨⟨4, 167772160⟩, ⟨16, 32⟩⟩ = false) →
        ∀ u ∈ ([⟨⟨4, 167772416⟩, ⟨24, 32⟩⟩] : List IPNet),
          ContainsCidr u ⟨⟨4, 167772160⟩, ⟨24, 32⟩⟩ = false)) :=
  ⟨by decide, by decide, rfl,
    c1_validity ⟨⟨4, 167772160⟩, ⟨16, 32⟩⟩ ⟨24, 32⟩ [⟨⟨4, 167772416⟩, ⟨24, 32⟩⟩]
      ⟨⟨4, 167772160⟩, ⟨24, 32⟩⟩ (by decide) (by decide) rfl⟩

/-- C6: a returned block is the lowest-addressed candidate: every
well-formed candidate (of either address family) of the desired mask
contained in the root and disjoint (neither equal nor containing nor
contained) from every used block has an address at least B's. -/
theorem c6_lowest_address (rootCidr : IPNet) (desiredMask : Mask)
    (usedCidrs : List IPNet) (B C : IPNet)
    (hroot : WFCidr rootCidr) (hused : ∀ u ∈ usedCidrs, WFCidr u) (hwfC : WFCidr C)
    (h : FindAvailableCIDR rootCidr desiredMask usedCidrs = .ok B)
    (hCmask : EqualMask C.mask desiredMask = true)
    (hCin : ContainsCidr rootCidr C = true)
    (hCfree : ∀ u ∈ usedCidrs, EqualCIDRs C u = false ∧ ContainsCidr C u = false ∧
      ContainsCidr u C = false) :
    B.ip.val ≤ C.ip.val := by
  obtain ⟨hv, hcases⟩ := find_ok_cases h
  have hL : rootCidr.ip.len = 4 ∨ rootCidr.ip.len = 16 := by
    rcases hroot.1 with h' | h'
    · exact Or.inl h'
    · exact Or.inr h'.1
  have hwvroot : WFV rootCidr.ip.len rootCidr := wfcidr_wfv hroot
  have hrnm : rootCidr.ip.len = 16 → rootCidr.ip.val / 2 ^ 32 ≠ 0xffff := by
    intro h16
    rcases hroot.1 with h' | h'
    · omega
    · exact h'.2
  have harC : AddressRange C =
      (C.ip, ⟨C.ip.len, C.ip.val + (2 ^ (C.mask.bits - C.mask.ones) - 1)⟩) :=
    addressRange_eqW hwfC.2.2.1 hwfC.2.2.2.1 hwfC.2.2.2.2
  rw [ContainsCidr, harC] at hCin
  simp only [Bool.and_eq_true] at hCin
  obtain ⟨hcC1, hcC2⟩ := hCin
  have hClen : C.ip.len = rootCidr.ip.len := contains_true_len hroot.1 hwfC.1 hcC1
  have hwvC : WFV rootCidr.ip.len C := by
    have := wfcidr_wfv hwfC
    rw [hClen] at this
    exact this
  have hexpC : C.mask.bits - C.mask.ones = 8 * rootCidr.ip.len - C.mask.ones := by
    have h2 := hwvC.2.2.1
    omega
  have hpC : (1 : ℕ) ≤ 2 ^ (8 * rootCidr.ip.len - C.mask.ones) := two_pow_pos' _
  have hCnm : rootCidr.ip.len = 16 → C.ip.val / 2 ^ 32 ≠ 0xffff := by
    intro h16
    rcases hwfC.1 with h' | h'
    · omega
    · exact h'.2
  have hClastnm : rootCidr.ip.len = 16 →
      (C.ip.val + (2 ^ (8 * rootCidr.ip.len - C.mask.ones) - 1)) / 2 ^ 32 ≠ 0xffff := by
    intro h16
    have hres := contains_true_unmapped (by omega)
      (by
        have h2 := hroot.2.2.1
        omega)
      (hrnm h16)
      (show (⟨C.ip.len, C.ip.val + (2 ^ (C.mask.bits - C.mask.ones) - 1)⟩ : IP).len = 16
        from by
          show C.ip.len = 16
          omega) hcC2
    have hres' : (C.ip.val + (2 ^ (C.mask.bits - C.mask.ones) - 1)) / 2 ^ 32 ≠ 0xffff := hres
    rw [hexpC] at hres'
    exact hres'
  have hendC := range_end_leW hwvC
  have hm1 := (contains_mem hL hwvroot hrnm hwvC.1 hwvC.2.1 hCnm).mp hcC1
  have hm2 := (contains_mem hL hwvroot hrnm
    (show (⟨C.ip.len, C.ip.val + (2 ^ (C.mask.bits - C.mask.ones) - 1)⟩ : IP).len
      = rootCidr.ip.len from hClen)
    (show (⟨C.ip.len, C.ip.val + (2 ^ (C.mask.bits - C.mask.ones) - 1)⟩ : IP).val
      < 2 ^ (8 * rootCidr.ip.len) from by
        show C.ip.val + (2 ^ (C.mask.bits - C.mask.ones) - 1) < 2 ^ (8 * rootCidr.ip.len)
        rw [hexpC]
        omega)
    (by
      intro h16
      show (C.ip.val + (2 ^ (C.mask.bits - C.mask.ones) - 1)) / 2 ^ 32 ≠ 0xffff
      rw [hexpC]
      exact hClastnm h16)).mp hcC2
  have hm2' : C.ip.val + (2 ^ (C.mask.bits - C.mask.ones) - 1) <
      rootCidr.ip.val + 2 ^ (8 * rootCidr.ip.len - rootCidr.mask.ones) := hm2.2
  rw [hexpC] at hm2'
  have hCo : C.mask.ones = desiredMask.ones := (equalMask_iff.mp hCmask).1
  rcases hcases with ⟨he, hnil, hBr⟩ | ⟨he, hs, hev⟩
  · subst hBr
    exact hm1.1
  · have hev2 : evalAux (rootCidr.mask.bits - rootCidr.mask.ones) rootCidr desiredMask
        usedCidrs = .ok (some B) := hev
    obtain ⟨hBo, hBb, hdbits, hro, hdle⟩ := evalAux_some_mask _ _ _ _ _ hev2
    have hdb : desiredMask.bits = 8 * rootCidr.ip.len := by
      have h2 := hroot.2.2.1
      omega
    have hdo : desiredMask.ones ≤ 8 * rootCidr.ip.len := by omega
    have hfacts := verify_none_facts hroot hused hv
    have hbundle : ∀ u ∈ usedCidrs, WFV rootCidr.ip.len u ∧
        (rootCidr.ip.len = 16 → u.ip.val / 2 ^ 32 ≠ 0xffff ∧
          (u.ip.val + (2 ^ (8 * rootCidr.ip.len - u.mask.ones) - 1)) / 2 ^ 32 ≠ 0xffff) := by
      intro u hu
      obtain ⟨hlen, hlast, hb1, hb2⟩ := hfacts u hu
      have hwvu : WFV rootCidr.ip.len u := by
        have := wfcidr_wfv (hused u hu)
        rw [hlen] at this
        exact this
      refine ⟨hwvu, fun h16 => ⟨?_, hlast h16⟩⟩
      rcases (hused u hu).1 with h' | h'
      · omega
      · exact h'.2
    have hfree : FreeFrom (8 * rootCidr.ip.len) usedCidrs C := by
      intro u hu
      by_contra hcon
      have hdisj := not_disjoint_casesW hL hwvC (hbundle u hu).1
        (fun h16 => ⟨hCnm h16, hClastnm h16⟩) (hbundle u hu).2 hcon
      rcases hdisj with hc | hc | hc
      · rw [(hCfree u hu).1] at hc
        exact absurd hc (by simp)
      · rw [(hCfree u hu).2.1] at hc
        exact absurd hc (by simp)
      · rw [(hCfree u hu).2.2] at hc
        exact absurd hc (by simp)
    exact eval_minW hL hdb hdo hbundle (desiredMask.ones - rootCidr.mask.ones) rootCidr
      rfl hwvroot hro B hev C hwvC hCo hm1.1 (by omega) hfree

/-- C6 witness: with 10.0.0.0/24 reserved the call returns 10.0.1.0/24,
and the free candidate 10.0.2.0/24 has a higher address. -/
theorem c6_lowest_address_witness :
    WFCidr ⟨⟨4, 167772160⟩, ⟨16, 32⟩⟩ ∧
    (∀ u ∈ ([⟨⟨4, 167772160⟩, ⟨24, 32⟩⟩] : List IPNet), WFCidr u) ∧
    WFCidr ⟨⟨4, 167772672⟩, ⟨24, 32⟩⟩ ∧
    FindAvailableCIDR ⟨⟨4, 167772160⟩, ⟨16, 32⟩⟩ ⟨24, 32⟩
        [⟨⟨4, 167772160⟩, ⟨24, 32⟩⟩] = .ok ⟨⟨4, 167772416⟩, ⟨24, 32⟩⟩ ∧
    EqualMask (⟨⟨4, 167772672⟩, ⟨24, 32⟩⟩ : IPNet).mask ⟨24, 32⟩ = true ∧
    ContainsCidr ⟨⟨4, 167772160⟩, ⟨16, 32⟩⟩ ⟨⟨4, 167772672⟩, ⟨24, 32⟩⟩ = true ∧
    (∀ u ∈ ([⟨⟨4, 167772160⟩, ⟨24, 32⟩⟩] : List IPNet),
      EqualCIDRs ⟨⟨4, 167772672⟩, ⟨24, 32⟩⟩ u = false ∧
      ContainsCidr ⟨⟨4, 167772672⟩, ⟨24, 32⟩⟩ u = false ∧
      ContainsCidr u ⟨⟨4, 167772672⟩, ⟨24, 32⟩⟩ = false) ∧
    (⟨⟨4, 167772416⟩, ⟨24, 32⟩⟩ : IPNet).ip.val ≤
      (⟨⟨4, 167772672⟩, ⟨24, 32⟩⟩ : IPNet).ip.val :=
  ⟨by decide, by decide, by decide, rfl, rfl, by decide, by decide,
    c6_lowest_address ⟨⟨4, 167772160⟩, ⟨16, 32⟩⟩ ⟨24, 32⟩
      [⟨⟨4, 167772160⟩, ⟨24, 32⟩⟩] ⟨⟨4, 167772416⟩, ⟨24, 32⟩⟩ ⟨⟨4, 167772672⟩, ⟨24, 32⟩⟩
      (by decide) (by decide) (by decide) rfl rfl (by decide) (by decide)⟩

/-- C10: a used list containing two distinct well-formed entries of
either address family whose canonical ranges share an address (duplicates
included) is rejected by validation with the InvalidInputRanges kind,
whatever the root and desired mask. -/
theorem c10_overlapping_used_rejected (rootCidr : IPNet) (desiredMask : Mask)
    (usedCidrs : List IPNet) (hused : ∀ u ∈ usedCidrs, WFCidr u)
    (i j : ℕ) (hi : i < usedCidrs.length) (hj : j < usedCidrs.length) (hij : i ≠ j)
    (x : ℕ) (hxi : memRange (usedCidrs.get ⟨i, hi⟩) x)
    (hxj : memRange (usedCidrs.get ⟨j, hj⟩) x) :
    ∃ e, FindAvailableCIDR rootCidr desiredMask usedCidrs = .error (.invalidRanges e) ∧
      (FindError.invalidRanges e).kind = ErrorKind.invalidInputRanges := by
  cases hv : VerifyNoOverlap usedCidrs rootCidr with
  | some e =>
    refine ⟨e, ?_, rfl⟩
    rw [FindAvailableCIDR, hv]
  | none =>
    exfalso
    have hwfi : WFCidr (usedCidrs.get ⟨i, hi⟩) := hused _ (List.get_mem usedCidrs i hi)
    have hwfj : WFCidr (usedCidrs.get ⟨j, hj⟩) := hused _ (List.get_mem usedCidrs j hj)
    have hari := addressRange_eqW hwfi.2.2.1 hwfi.2.2.2.1 hwfi.2.2.2.2
    have harj := addressRange_eqW hwfj.2.2.1 hwfj.2.2.2.1 hwfj.2.2.2.2
    have hshi := memRange_shift hxi
    have hshj := memRange_shift hxj
    rcases hwfi.1 with hi4 | ⟨hi16, him⟩ <;> rcases hwfj.1 with hj4 | ⟨hj16, hjm⟩
    · have hwvi : WFV 4 (usedCidrs.get ⟨i, hi⟩) := by
        have := wfcidr_wfv hwfi
        rw [hi4] at this
        exact this
      have hwvj : WFV 4 (usedCidrs.get ⟨j, hj⟩) := by
        have := wfcidr_wfv hwfj
        rw [hj4] at this
        exact this
      have hmi := hshi.1 hi4
      have hmj := hshj.1 hj4
      have hexpi : (usedCidrs.get ⟨i, hi⟩).mask.bits - (usedCidrs.get ⟨i, hi⟩).mask.ones =
          8 * 4 - (usedCidrs.get ⟨i, hi⟩).mask.ones := by
        have h2 := hwvi.2.2.1
        omega
      have hexpj : (usedCidrs.get ⟨j, hj⟩).mask.bits - (usedCidrs.get ⟨j, hj⟩).mask.ones =
          8 * 4 - (usedCidrs.get ⟨j, hj⟩).mask.ones := by
        have h2 := hwvj.2.2.1
        omega
      rw [hexpi] at hmi
      rw [hexpj] at hmj
      have hdet := overlap_detected (Or.inl rfl) hwvi hwvj
        (by
          intro h16
          exact absurd h16 (by decide))
        (by
          intro h16
          exact absurd h16 (by decide))
        ⟨hmi.2.1, hmi.2.2⟩ ⟨hmj.2.1, hmj.2.2⟩
      rcases hdet with hc | hc
      · have hp := (verify_none_pairwise hv i j hi hj hij).1
        rw [harj] at hp
        have hp' : (usedCidrs.get ⟨i, hi⟩).contains (usedCidrs.get ⟨j, hj⟩).ip = false := hp
        rw [hp'] at hc
        exact absurd hc (by simp)
      · have hp := (verify_none_pairwise hv j i hj hi (Ne.symm hij)).1
        rw [hari] at hp
        have hp' : (usedCidrs.get ⟨j, hj⟩).contains (usedCidrs.get ⟨i, hi⟩).ip = false := hp
        rw [hp'] at hc
        exact absurd hc (by simp)
    · have hcci := verify_none_contains hv i hi
      have hccj := verify_none_contains hv j hj
      rw [ContainsCidr, hari] at hcci
      rw [ContainsCidr, harj] at hccj
      simp only [Bool.and_eq_true] at hcci hccj
      have hcci1 : rootCidr.contains (usedCidrs.get ⟨i, hi⟩).ip = true := hcci.1
      have hccj1 : rootCidr.contains (usedCidrs.get ⟨j, hj⟩).ip = true := hccj.1
      exact contains_lens hi4 hj16 hjm hcci1 hccj1
    · have hcci := verify_none_contains hv i hi
      have hccj := verify_none_contains hv j hj
      rw [ContainsCidr, hari] at hcci
      rw [ContainsCidr, harj] at hccj
      simp only [Bool.and_eq_true] at hcci hccj
      have hcci1 : rootCidr.contains (usedCidrs.get ⟨i, hi⟩).ip = true := hcci.1
      have hccj1 : rootCidr.contains (usedCidrs.get ⟨j, hj⟩).ip = true := hccj.1
      exact contains_lens hj4 hi16 him hccj1 hcci1
    · have hwvi : WFV 16 (usedCidrs.get ⟨i, hi⟩) := by
        have := wfcidr_wfv hwfi
        rw [hi16] at this
        exact this
      have hwvj : WFV 16 (usedCidrs.get ⟨j, hj⟩) := by
        have := wfcidr_wfv hwfj
        rw [hj16] at this
        exact this
      have hmi := hshi.2 hi16
      have hmj := hshj.2 hj16
      have hexpi : (usedCidrs.get ⟨i, hi⟩).mask.bits - (usedCidrs.get ⟨i, hi⟩).mask.ones =
          8 * 16 - (usedCidrs.get ⟨i, hi⟩).mask.ones := by
        have h2 := hwvi.2.2.1
        omega
      have hexpj : (usedCidrs.get ⟨j, hj⟩).mask.bits - (usedCidrs.get ⟨j, hj⟩).mask.ones =
          8 * 16 - (usedCidrs.get ⟨j, hj⟩).mask.ones := by
        have h2 := hwvj.2.2.1
        omega
      rw [hexpi] at hmi
      rw [hexpj] at hmj
      have hdet := overlap_detected (Or.inr rfl) hwvi hwvj
        (fun _ => him) (fun _ => hjm) ⟨hmi.1, hmi.2⟩ ⟨hmj.1, hmj.2⟩
      rcases hdet with hc | hc
      · have hp := (verify_none_pairwise hv i j hi hj hij).1
        rw [harj] at hp
        have hp' : (usedCidrs.get ⟨i, hi⟩).contains (usedCidrs.get ⟨j, hj⟩).ip = false := hp
        rw [hp'] at hc
        exact absurd hc (by simp)
      · have hp := (verify_none_pairwise hv j i hj hi (Ne.symm hij)).1
        rw [hari] at hp
        have hp' : (usedCidrs.get ⟨j, hj⟩).contains (usedCidrs.get ⟨i, hi⟩).ip = false := hp
        rw [hp'] at hc
        exact absurd hc (by simp)

/-- C10 witness: two identical used entries are rejected. -/
theorem c10_overlapping_used_rejected_witness :
    (∀ u ∈ ([⟨⟨4, 167772928⟩, ⟨24, 32⟩⟩, ⟨⟨4, 167772928⟩, ⟨24, 32⟩⟩] : List IPNet),
      WFCidr u) ∧
    (0 : ℕ) ≠ 1 ∧
    memRange (⟨⟨4, 167772928⟩, ⟨24, 32⟩⟩ : IPNet) 281470849516288 ∧
    ∃ e, FindAvailableCIDR ⟨⟨4, 167772160⟩, ⟨16, 32⟩⟩ ⟨24, 32⟩
        [⟨⟨4, 167772928⟩, ⟨24, 32⟩⟩, ⟨⟨4, 167772928⟩, ⟨24, 32⟩⟩] =
        .error (.invalidRanges e) ∧
      (FindError.invalidRanges e).kind = ErrorKind.invalidInputRanges :=
  ⟨by decide, by decide, by decide,
    c10_overlapping_used_rejected ⟨⟨4, 167772160⟩, ⟨16, 32⟩⟩ ⟨24, 32⟩
      [⟨⟨4, 167772928⟩, ⟨24, 32⟩⟩, ⟨⟨4, 167772928⟩, ⟨24, 32⟩⟩] (by decide)
      0 1 (by decide) (by decide) (by decide) 281470849516288 (by decide) (by decide)⟩

end Cola
